import Mathlib

set_option maxRecDepth 100000

/-!
Verification of the anchor-based patch/unpatch engine of `home-teacher-core`
(`src/add_debug_logs_v2.py` and `src/remove_debug_logs.py`).

The two scripts are pure text transformations (file I/O aside): the patcher
inserts diagnostic `addDebugLog` statements at textual anchors, guarded by
presence checks; the unpatcher removes injected statements by a MULTILINE
regex, removes a display block by a DOTALL regex, and falls back to a
brace-counting line scan.

Text is modelled as `List Char`.  The three regular expressions used by the
scripts are each a plain sequence of literals, greedy character classes
(`\s*`, `\s+`, `[^}]+`, `[^)]+`) and the lazy dot-all `.*?`, so they are
embedded via a token-sequence backtracking matcher (`matchSeq`) with exactly
Python's greedy/lazy backtracking order, plus leftmost search (`findSplit`),
global substitution (`subAll`, Python `re.sub` with `count=0`), and the
MULTILINE variant that only starts a match at the beginning of a line
(`findSplitLS` / `subAllLS`).  `str.replace` is `replaceAll`, `in` is
`isSubstr`, `str.split('\n')` / `'\n'.join` are `splitNL` / `joinNL`.
-/

namespace HomeTeacher

/-- Characters matched by the regex class `\s` (the ASCII whitespace set;
the scripts only ever meet ASCII whitespace). -/
def isPyWS (c : Char) : Bool :=
  c == ' ' || c == '\t' || c == '\n' || c == '\r' || c == '\x0b' || c == '\x0c'

/-- Abbreviation turning a string literal into the character list it denotes. -/
def lchars (s : String) : List Char := s.data

/-- Python's substring test `a in s`. -/
def isSubstr (a : List Char) : List Char → Bool
  | [] => a.isEmpty
  | c :: s => a.isPrefixOf (c :: s) || isSubstr a s

/-- One token of the (tiny) regex fragment the two scripts use:
a literal, a greedy `class+`, a greedy `class*`, or the lazy dot-all `.*?`. -/
inductive Tok where
  | lit (l : List Char)
  | plus (p : Char → Bool)
  | star (p : Char → Bool)
  | lazystar
deriving Inhabited

mutual

/-- Backtracking matcher for a token sequence at the start of `s`:
returns the remaining suffix after the match, or `none`.  Greedy tokens try
the longest repetition first (`tryKs0` / `tryKs1` count repetitions down),
the lazy `.*?` tries the shortest first — Python's backtracking order. -/
def matchSeq : List Tok → List Char → Option (List Char)
  | [], s => some s
  | .lit l :: ts, s => if l.isPrefixOf s then matchSeq ts (s.drop l.length) else none
  | .plus p :: ts, s => tryKs1 ts s (s.takeWhile p).length
  | .star p :: ts, s => tryKs0 ts s (s.takeWhile p).length
  | .lazystar :: ts, s =>
      match matchSeq ts s with
      | some r => some r
      | none =>
          match s with
          | [] => none
          | _ :: s' => matchSeq (.lazystar :: ts) s'

/-- Try consuming `k, k-1, …, 0` characters, first success wins (for `class*`). -/
def tryKs0 : List Tok → List Char → Nat → Option (List Char)
  | ts, s, 0 => matchSeq ts s
  | ts, s, k + 1 =>
      match matchSeq ts (s.drop (k + 1)) with
      | some r => some r
      | none => tryKs0 ts s k

/-- Try consuming `k, k-1, …, 1` characters, first success wins (for `class+`). -/
def tryKs1 : List Tok → List Char → Nat → Option (List Char)
  | _, _, 0 => none
  | ts, s, k + 1 =>
      match matchSeq ts (s.drop (k + 1)) with
      | some r => some r
      | none => tryKs1 ts s k

end

/-- Leftmost match of `ts` in `s`: splits `s` as `pre ++ matched ++ rest`. -/
def findSplit (ts : List Tok) (s : List Char) :
    Option (List Char × List Char × List Char) :=
  match matchSeq ts s with
  | some r => some ([], s.take (s.length - r.length), r)
  | none =>
    match s with
    | [] => none
    | c :: s' => (findSplit ts s').map fun pmr => (c :: pmr.1, pmr.2.1, pmr.2.2)

/-- Leftmost match that may only start at the beginning of a line
(Python `re.MULTILINE` with a pattern anchored by `^`).  `atLS` records
whether the current position starts a line. -/
def findSplitLS (ts : List Tok) : Bool → List Char → Option (List Char × List Char × List Char)
  | atLS, s =>
    match (if atLS then matchSeq ts s else none) with
    | some r => some ([], s.take (s.length - r.length), r)
    | none =>
      match s with
      | [] => none
      | c :: s' => (findSplitLS ts (c == '\n') s').map fun pmr => (c :: pmr.1, pmr.2.1, pmr.2.2)

mutual

theorem matchSeq_suffix : ∀ (ts : List Tok) (s r : List Char),
    matchSeq ts s = some r → r <:+ s
  | [], _, _, h => by
      rw [matchSeq] at h
      cases h
      exact List.suffix_rfl
  | .lit l :: ts, s, r, h => by
      rw [matchSeq] at h
      by_cases hp : l.isPrefixOf s
      · rw [if_pos hp] at h
        exact (matchSeq_suffix ts _ r h).trans (List.drop_suffix _ _)
      · rw [if_neg hp] at h
        cases h
  | .plus p :: ts, s, r, h => by
      rw [matchSeq] at h
      exact tryKs1_suffix ts s _ r h
  | .star p :: ts, s, r, h => by
      rw [matchSeq] at h
      exact tryKs0_suffix ts s _ r h
  | .lazystar :: ts, s, r, h => by
      cases s with
      | nil =>
          rw [matchSeq] at h
          cases hm : matchSeq ts [] with
          | some r' =>
              rw [hm] at h
              simp at h
              subst h
              exact matchSeq_suffix ts [] r' hm
          | none => rw [hm] at h; simp at h
      | cons c s' =>
          rw [matchSeq] at h
          cases hm : matchSeq ts (c :: s') with
          | some r' =>
              rw [hm] at h
              simp at h
              subst h
              exact matchSeq_suffix ts _ r' hm
          | none =>
              rw [hm] at h
              simp at h
              exact (matchSeq_suffix (.lazystar :: ts) s' r h).trans (List.suffix_cons c s')
termination_by ts s r h => (ts.length, s.length, 0)

theorem tryKs0_suffix : ∀ (ts : List Tok) (s : List Char) (k : Nat) (r : List Char),
    tryKs0 ts s k = some r → r <:+ s
  | ts, s, 0, r, h => by
      rw [tryKs0] at h
      exact matchSeq_suffix ts s r h
  | ts, s, k + 1, r, h => by
      rw [tryKs0] at h
      cases hm : matchSeq ts (s.drop (k + 1)) with
      | some r' =>
          rw [hm] at h
          cases h
          exact (matchSeq_suffix _ _ _ hm).trans (List.drop_suffix _ _)
      | none =>
          rw [hm] at h
          exact tryKs0_suffix ts s k r h
termination_by ts s k r h => (ts.length, s.length + 1, k)

theorem tryKs1_suffix : ∀ (ts : List Tok) (s : List Char) (k : Nat) (r : List Char),
    tryKs1 ts s k = some r → r <:+ s
  | _, _, 0, _, h => by rw [tryKs1] at h; cases h
  | ts, s, k + 1, r, h => by
      rw [tryKs1] at h
      cases hm : matchSeq ts (s.drop (k + 1)) with
      | some r' =>
          rw [hm] at h
          cases h
          exact (matchSeq_suffix _ _ _ hm).trans (List.drop_suffix _ _)
      | none =>
          rw [hm] at h
          exact tryKs1_suffix ts s k r h
termination_by ts s k r h => (ts.length, s.length + 1, k)

end

theorem take_of_suffix (x r s : List Char) (hx : x ++ r = s) :
    s.take (s.length - r.length) = x := by
  subst hx
  have hl : (x ++ r).length - r.length = x.length := by simp
  rw [hl, List.take_left]

theorem findSplit_eq (ts : List Tok) (s p m r : List Char)
    (h : findSplit ts s = some (p, m, r)) : s = p ++ m ++ r := by
  induction s generalizing p m r with
  | nil =>
      rw [findSplit] at h
      cases hm : matchSeq ts [] with
      | none => rw [hm] at h; simp at h
      | some r' =>
          rw [hm] at h
          obtain ⟨x, hx⟩ := matchSeq_suffix ts [] r' hm
          simp only [Option.some.injEq, Prod.mk.injEq] at h
          obtain ⟨h1, h2, h3⟩ := h
          rw [take_of_suffix x r' [] hx] at h2
          subst h1 h2 h3
          simpa using hx.symm
  | cons c s' ih =>
      rw [findSplit] at h
      cases hm : matchSeq ts (c :: s') with
      | some r' =>
          rw [hm] at h
          obtain ⟨x, hx⟩ := matchSeq_suffix ts (c :: s') r' hm
          simp only [Option.some.injEq, Prod.mk.injEq] at h
          obtain ⟨h1, h2, h3⟩ := h
          rw [take_of_suffix x r' (c :: s') hx] at h2
          subst h1 h2 h3
          simpa using hx.symm
      | none =>
          rw [hm] at h
          cases hfs : findSplit ts s' with
          | none => rw [hfs] at h; simp at h
          | some pmr =>
              obtain ⟨p', m', r''⟩ := pmr
              rw [hfs] at h
              simp only [Option.map_some', Option.some.injEq, Prod.mk.injEq] at h
              obtain ⟨h1, h2, h3⟩ := h
              subst h2 h3
              have hs' := ih p' m' r'' hfs
              rw [← h1, hs']
              simp

theorem findSplitLS_eq (ts : List Tok) (b : Bool) (s p m r : List Char)
    (h : findSplitLS ts b s = some (p, m, r)) : s = p ++ m ++ r := by
  induction s generalizing b p m r with
  | nil =>
      rw [findSplitLS] at h
      cases hm : (if b then matchSeq ts [] else none) with
      | none => rw [hm] at h; simp at h
      | some r' =>
          rw [hm] at h
          have hms : matchSeq ts [] = some r' := by
            cases b with
            | false => simp at hm
            | true => simpa using hm
          obtain ⟨x, hx⟩ := matchSeq_suffix ts [] r' hms
          simp only [Option.some.injEq, Prod.mk.injEq] at h
          obtain ⟨h1, h2, h3⟩ := h
          rw [take_of_suffix x r' [] hx] at h2
          subst h1 h2 h3
          simpa using hx.symm
  | cons c s' ih =>
      rw [findSplitLS] at h
      cases hm : (if b then matchSeq ts (c :: s') else none) with
      | some r' =>
          rw [hm] at h
          have hms : matchSeq ts (c :: s') = some r' := by
            cases b with
            | false => simp at hm
            | true => simpa using hm
          obtain ⟨x, hx⟩ := matchSeq_suffix ts (c :: s') r' hms
          simp only [Option.some.injEq, Prod.mk.injEq] at h
          obtain ⟨h1, h2, h3⟩ := h
          rw [take_of_suffix x r' (c :: s') hx] at h2
          subst h1 h2 h3
          simpa using hx.symm
      | none =>
          rw [hm] at h
          cases hfs : findSplitLS ts (c == '\n') s' with
          | none => rw [hfs] at h; simp at h
          | some pmr =>
              obtain ⟨p', m', r''⟩ := pmr
              rw [hfs] at h
              simp only [Option.map_some', Option.some.injEq, Prod.mk.injEq] at h
              obtain ⟨h1, h2, h3⟩ := h
              subst h2 h3
              have hs' := ih (c == '\n') p' m' r'' hfs
              rw [← h1, hs']
              simp

/-- `re.sub(pattern, rep, s)` with `count = 0`: replace every non-overlapping
match, scanning left to right, continuing after each match (an empty match
consumes one extra character, as in Python). -/
def subAll (ts : List Tok) (rep : List Char → List Char) (s : List Char) : List Char :=
  match hf : findSplit ts s with
  | none => s
  | some (p, m, r) =>
      if hm : m = [] then
        match r with
        | [] => p ++ rep []
        | c :: r' => p ++ rep [] ++ c :: subAll ts rep r'
      else p ++ rep m ++ subAll ts rep r
termination_by s.length
decreasing_by
  · have h1 := findSplit_eq ts s p m (c :: r') hf
    have h2 := congrArg List.length h1
    simp at h2
    omega
  · have h1 := findSplit_eq ts s p m r hf
    have h2 := congrArg List.length h1
    have h3 : 0 < m.length := List.length_pos.mpr hm
    simp at h2
    omega

/-- `re.sub` for the `^`-anchored MULTILINE pattern: matches may only start
at the start of a line; scanning resumes after each removed match (whose last
character decides whether the resume position starts a line). -/
def subAllLS (ts : List Tok) (rep : List Char → List Char) (b : Bool) (s : List Char) : List Char :=
  match hf : findSplitLS ts b s with
  | none => s
  | some (p, m, r) =>
      if hm : m = [] then
        match r with
        | [] => p ++ rep []
        | c :: r' => p ++ rep [] ++ c :: subAllLS ts rep (c == '\n') r'
      else p ++ rep m ++ subAllLS ts rep (m.getLast? == some '\n') r
termination_by s.length
decreasing_by
  · have h1 := findSplitLS_eq ts b s p m (c :: r') hf
    have h2 := congrArg List.length h1
    simp at h2
    omega
  · have h1 := findSplitLS_eq ts b s p m r hf
    have h2 := congrArg List.length h1
    have h3 : 0 < m.length := List.length_pos.mpr hm
    simp at h2
    omega

/-- Python `str.replace(a, b)` (for nonempty `a`): replace each
non-overlapping occurrence of `a` left to right. -/
def replaceAll (a b : List Char) : List Char → List Char
  | [] => []
  | c :: s =>
      if h : a ≠ [] ∧ a.isPrefixOf (c :: s) then
        b ++ replaceAll a b (List.drop a.length (c :: s))
      else
        c :: replaceAll a b s
termination_by s => s.length
decreasing_by
  · have : 0 < a.length := List.length_pos.mpr h.1
    simp; omega
  · simp

/-- Python `s.split('\n')`. -/
def splitNL : List Char → List (List Char)
  | [] => [[]]
  | c :: s =>
      if c = '\n' then [] :: splitNL s
      else
        match splitNL s with
        | [] => [[c]]
        | l :: ls => (c :: l) :: ls

/-- Python `'\n'.join(ls)`. -/
def joinNL : List (List Char) → List Char
  | [] => []
  | [l] => l
  | l :: ls => l ++ '\n' :: joinNL ls

/-! ### The patcher (`src/add_debug_logs_v2.py`)

Five rules run in order on the file content; each rule is guarded by a
detection marker (skip if already present) and inserts text adjacent to an
anchor.  Rule 1 is `re.sub` with the whole match kept (`\1`) and the mount
block appended; rules 2–5 are `str.replace(anchor, anchor + inserted)`.
Braces, apostrophes and backticks inside string literals are written with
`\x..` escapes. -/

/-- Detection marker of rule 1 (`'🚀 PDFPane Mounted' not in content`). -/
def marker1 : List Char := lchars "🚀 PDFPane Mounted"

/-- The `mount_log` block of `add_debug_logs_v2.py` lines 9–15. -/
def mount_log : List Char :=
  lchars "\n    // マウント確認用\n    useEffect(() => \x7b\n        addDebugLog(\x27🚀 PDFPane Mounted\x27)\n        return () => addDebugLog(\x27💀 PDFPane Unmounted\x27)\n    \x7d, [])\n"

/-- Token sequence of the rule-1 regex
`(const addDebugLog = \(msg: string\) => \{[^}]+\n\s+console\.log\(msg\)\n\s+\})`. -/
def rule1Head : List Char := lchars "const addDebugLog = (msg: string) => \x7b"

def rule1Toks : List Tok :=
  [.lit rule1Head,
   .plus (fun c => !(c == '\x7d')),
   .lit (lchars "\n"),
   .plus isPyWS,
   .lit (lchars "console.log(msg)"),
   .lit (lchars "\n"),
   .plus isPyWS,
   .lit (lchars "\x7d")]

/-- Detection marker of rule 2. -/
def marker2 : List Char := lchars "🔍 Check: Ref="

/-- Anchor of rule 2. -/
def anchor2 : List Char :=
  lchars "addDebugLog(\x60✅ Valid tap, gap=$\x7btimeSinceLastTap\x7dms\x60)"

/-- Text inserted by rule 2 after its anchor (newline + 28 spaces + call). -/
def ins2 : List Char :=
  lchars "\n                            addDebugLog(\x60🔍 Check: Ref=$\x7blastTwoFingerTapTime.current\x7d, Now=$\x7bnow\x7d\x60)"

/-- Detection marker of rule 3. -/
def marker3 : List Char := lchars "🔄 Undo Reset"

/-- Anchor of rule 3. -/
def anchor3 : List Char := lchars "addDebugLog(\x27🎉 DOUBLE TAP SUCCESS!\x27)"

/-- Text inserted by rule 3 after its anchor (newline + 32 spaces + call). -/
def ins3 : List Char :=
  lchars "\n                                addDebugLog(\x60🔄 Undo Reset. Was: $\x7blastTwoFingerTapTime.current\x7d\x60)"

/-- Detection marker of rule 4. -/
def marker4 : List Char := lchars "💾 Set Ref"

/-- Anchor of rule 4. -/
def anchor4 : List Char := lchars "addDebugLog(\x27📝 First tap recorded\x27)"

/-- Text inserted by rule 4 after its anchor (newline + 32 spaces + call). -/
def ins4 : List Char :=
  lchars "\n                                addDebugLog(\x60💾 Set Ref. Was: $\x7blastTwoFingerTapTime.current\x7d -> New: $\x7bnow\x7d\x60)"

/-- Detection marker of rule 5. -/
def marker5 : List Char := lchars "🗑️ Timeout Reset"

/-- Anchor of rule 5. -/
def anchor5 : List Char := lchars "addDebugLog(\x27⏱️ Timeout - reset\x27)"

/-- Text inserted by rule 5 after its anchor (newline + 36 spaces + call). -/
def ins5 : List Char :=
  lchars "\n                                    addDebugLog(\x60🗑️ Timeout Reset. Was: $\x7blastTwoFingerTapTime.current\x7d\x60)"

/-- Rule 1: insert the mount/unmount lifecycle block after the
`addDebugLog` definition matched by the rule-1 regex (`re.sub`, all
matches, replacement `\1 + mount_log`). -/
def patchRule1 (content : List Char) : List Char :=
  if isSubstr marker1 content then content
  else subAll rule1Toks (fun m => m ++ mount_log) content

/-- Rule 2: `content.replace(anchor2, anchor2 + ins2)` under its marker guard. -/
def patchRule2 (content : List Char) : List Char :=
  if isSubstr marker2 content then content
  else replaceAll anchor2 (anchor2 ++ ins2) content

/-- Rule 3: `content.replace(anchor3, anchor3 + ins3)` under its marker guard. -/
def patchRule3 (content : List Char) : List Char :=
  if isSubstr marker3 content then content
  else replaceAll anchor3 (anchor3 ++ ins3) content

/-- Rule 4: `content.replace(anchor4, anchor4 + ins4)` under its marker guard. -/
def patchRule4 (content : List Char) : List Char :=
  if isSubstr marker4 content then content
  else replaceAll anchor4 (anchor4 ++ ins4) content

/-- Rule 5: `content.replace(anchor5, anchor5 + ins5)` under its marker guard. -/
def patchRule5 (content : List Char) : List Char :=
  if isSubstr marker5 content then content
  else replaceAll anchor5 (anchor5 ++ ins5) content

/-- The patcher's pure text transformation: the five rules in source order. -/
def patch (content : List Char) : List Char :=
  patchRule5 (patchRule4 (patchRule3 (patchRule2 (patchRule1 content))))

/-! ### The unpatcher (`src/remove_debug_logs.py`) -/

/-- Token sequence of the line-removal regex `^\s*addDebugLog\([^)]+\)\s*\n`
(the `^` is handled by `subAllLS`). -/
def lineToks : List Tok :=
  [.star isPyWS,
   .lit (lchars "addDebugLog("),
   .plus (fun c => !(c == ')')),
   .lit (lchars ")"),
   .star isPyWS,
   .lit (lchars "\n")]

/-- Token sequence of `debug_display_pattern` (DOTALL; `.*?` is `lazystar`). -/
def displayToks : List Tok :=
  [.star isPyWS,
   .lit (lchars "\x7b/* Debug Log Display (iPad用) */\x7d"),
   .lazystar,
   .lit (lchars "\x7bdebugLogs.map((log, i) => ("),
   .lazystar,
   .lit (lchars "\n"),
   .star isPyWS,
   .lit (lchars "))\x7d"),
   .star isPyWS,
   .lit (lchars "</div>"),
   .star isPyWS,
   .lit (lchars ")\x7d"),
   .star isPyWS,
   .lit (lchars "\n")]

/-- `line.count('{') - line.count('}')` of the fallback scan. -/
def braceDelta (l : List Char) : Int :=
  (l.count '\x7b' : Int) - (l.count '\x7d' : Int)

/-- `'Debug Log Display' in line or 'debugLogs.length' in line`. -/
def hasBlockMarker (l : List Char) : Bool :=
  isSubstr (lchars "Debug Log Display") l || isSubstr (lchars "debugLogs.length") l

/-- The fallback loop of `remove_debug_logs.py` lines 23–35: a marker line
(re)starts skipping with counter 1; while skipping, the counter is adjusted
by the line's brace delta and clamped at 0 (the closing line is still
dropped); otherwise the line is kept. -/
def fallbackScan : Int → List (List Char) → List (List Char)
  | _, [] => []
  | skip, l :: ls =>
      if hasBlockMarker l then fallbackScan 1 ls
      else if 0 < skip then
        fallbackScan (if skip + braceDelta l ≤ 0 then 0 else skip + braceDelta l) ls
      else l :: fallbackScan skip ls

/-- The unpatcher's pure text transformation: the MULTILINE line-removal
`re.sub`, then the DOTALL display-block `re.sub`, then — only if
`'debugLogs.length'` still occurs — the brace-counting fallback scan. -/
def unpatch (content : List Char) : List Char :=
  let c1 := subAllLS lineToks (fun _ => []) true content
  let c2 := subAll displayToks (fun _ => []) c1
  if isSubstr (lchars "debugLogs.length") c2 then
    joinNL (fallbackScan 0 (splitNL c2))
  else c2

/-! ### Basic lemmas about the string operations -/

theorem isSubstr_iff_occurs (a s : List Char) : isSubstr a s = true ↔ a <:+: s := by
  induction s with
  | nil =>
      rw [isSubstr]
      simp only [List.isEmpty_iff]
      constructor
      · intro h; simp [h]
      · intro h; exact List.eq_nil_of_infix_nil h
  | cons c s ih =>
      rw [isSubstr]
      rw [Bool.or_eq_true, List.isPrefixOf_iff_prefix, ih, List.infix_cons_iff]

/-- `sep`-separated join; `replaceAll a b` is characterized by this structure. -/
def joinSep (sep : List Char) : List (List Char) → List Char
  | [] => []
  | [q] => q
  | q :: q' :: qs => q ++ sep ++ joinSep sep (q' :: qs)

theorem joinSep_cons (sep q : List Char) (qs : List (List Char)) (h : qs ≠ []) :
    joinSep sep (q :: qs) = q ++ sep ++ joinSep sep qs := by
  cases qs with
  | nil => exact absurd rfl h
  | cons q' qs' => rw [joinSep]

theorem joinSep_cons_head (sep : List Char) (c : Char) (q : List Char)
    (qs : List (List Char)) :
    joinSep sep ((c :: q) :: qs) = c :: joinSep sep (q :: qs) := by
  cases qs with
  | nil => rw [joinSep, joinSep]
  | cons q' qs' => rw [joinSep, joinSep]; simp

/-- Scan structure of `str.replace`: the input splits at the non-overlapping
occurrences of `a` found left to right, and the output is the same pieces
joined with `b` instead of `a`. -/
theorem replaceAll_chunks : ∀ (a b : List Char), a ≠ [] → ∀ s : List Char,
    ∃ qs : List (List Char), qs ≠ [] ∧ s = joinSep a qs ∧
      replaceAll a b s = joinSep b qs
  | a, b, ha, [] => ⟨[[]], by simp, by rw [joinSep], by rw [replaceAll, joinSep]⟩
  | a, b, ha, c :: s => by
      rw [replaceAll]
      by_cases hp : a.isPrefixOf (c :: s)
      · rw [dif_pos ⟨ha, hp⟩]
        obtain ⟨qs, hne, hjoin, hrepl⟩ :=
          replaceAll_chunks a b ha (List.drop a.length (c :: s))
        refine ⟨[] :: qs, by simp, ?_, ?_⟩
        · rw [joinSep_cons a [] qs hne, ← hjoin]
          obtain ⟨t, ht⟩ := List.isPrefixOf_iff_prefix.mp hp
          have hdrop : List.drop a.length (c :: s) = t := by
            rw [← ht, List.drop_left]
          rw [hdrop, ← ht]
          simp
        · rw [joinSep_cons b [] qs hne, hrepl]
          simp
      · have hcond : ¬ (a ≠ [] ∧ a.isPrefixOf (c :: s)) := by
          intro hc; exact hp hc.2
        rw [dif_neg hcond]
        obtain ⟨qs, hne, hjoin, hrepl⟩ := replaceAll_chunks a b ha s
        cases qs with
        | nil => exact absurd rfl hne
        | cons q qs' =>
            refine ⟨(c :: q) :: qs', by simp, ?_, ?_⟩
            · rw [joinSep_cons_head, ← hjoin]
            · rw [joinSep_cons_head, hrepl]
termination_by a b ha s => s.length
decreasing_by
  · have hl : 0 < a.length := List.length_pos.mpr ha
    simp
    omega
  · simp

/-- If `a` does not occur in `s`, `str.replace` leaves `s` unchanged. -/
theorem replaceAll_id_of_no_occurrence (a b s : List Char) (h : ¬ a <:+: s) :
    replaceAll a b s = s := by
  induction s with
  | nil => rw [replaceAll]
  | cons c s ih =>
      rw [replaceAll]
      have hp : ¬ (a ≠ [] ∧ a.isPrefixOf (c :: s)) := by
        intro hc
        exact h (List.isPrefixOf_iff_prefix.mp hc.2).isInfix
      rw [dif_neg hp]
      have h' : ¬ a <:+: s := fun hi => h (List.infix_cons_iff.mpr (Or.inr hi))
      rw [ih h']

/-- If `a` occurs in `s`, the replacement `b` occurs in `replaceAll a b s`. -/
theorem infix_replaceAll_of_infix (a b s : List Char) (ha : a ≠ []) (h : a <:+: s) :
    b <:+: replaceAll a b s := by
  induction s with
  | nil => exact absurd (List.eq_nil_of_infix_nil h) ha
  | cons c s ih =>
      rw [replaceAll]
      by_cases hp : a.isPrefixOf (c :: s)
      · rw [dif_pos ⟨ha, hp⟩]
        exact (List.prefix_append b _).isInfix
      · have hcond : ¬ (a ≠ [] ∧ a.isPrefixOf (c :: s)) := fun hc => hp hc.2
        rw [dif_neg hcond]
        have h' : a <:+: s := by
          rcases List.infix_cons_iff.mp h with hpre | hinf
          · exact absurd (List.isPrefixOf_iff_prefix.mpr hpre) hp
          · exact hinf
        exact List.infix_cons_iff.mpr (Or.inr (ih h'))

theorem prefix_append_of_le (m X Y : List Char) (h : m <+: X ++ Y)
    (hlen : m.length ≤ X.length) : m <+: X := by
  have h1 : m = (X ++ Y).take m.length := List.prefix_iff_eq_take.mp h
  rw [List.take_append_eq_append_take, Nat.sub_eq_zero_of_le hlen,
    List.take_zero, List.append_nil] at h1
  exact h1 ▸ List.take_prefix m.length X

/-- Decomposition of an occurrence inside an append: the occurrence lies in
the left part, in the right part, or crosses the border at some cut `k`. -/
theorem infix_append_cases (m X Y : List Char) (h : m <:+: X ++ Y) :
    m <:+: X ∨ m <:+: Y ∨
      ∃ k, 0 < k ∧ k < m.length ∧ m.take k <:+ X ∧ m.drop k <+: Y := by
  induction X with
  | nil => exact Or.inr (Or.inl (by simpa using h))
  | cons c X' ih =>
      rcases List.infix_cons_iff.mp (by simpa using h) with hpre | hinf
      · have hpre' : m <+: (c :: X') ++ Y := by simpa using hpre
        by_cases hlen : m.length ≤ (c :: X').length
        · exact Or.inl (prefix_append_of_le m (c :: X') Y hpre' hlen).isInfix
        · obtain ⟨t, ht⟩ := hpre'
          have hkm : (c :: X').length < m.length := by omega
          have htake : m.take (c :: X').length = c :: X' := by
            have h1 := congrArg (List.take (c :: X').length) ht
            rw [List.take_append_eq_append_take,
              Nat.sub_eq_zero_of_le (le_of_lt hkm), List.take_zero,
              List.append_nil, List.take_left] at h1
            exact h1
          have hdrop : m.drop (c :: X').length ++ t = Y := by
            have h2 := ht
            conv at h2 => lhs; rw [← List.take_append_drop ((c :: X').length) m]
            rw [htake, List.append_assoc] at h2
            exact List.append_cancel_left h2
          refine Or.inr (Or.inr ⟨(c :: X').length, by simp, hkm, ?_, ⟨t, hdrop⟩⟩)
          rw [htake]
      · rcases ih hinf with h1 | h2 | ⟨k, hk0, hkm, hsuf, hpre'⟩
        · exact Or.inl (List.infix_cons_iff.mpr (Or.inr h1))
        · exact Or.inr (Or.inl h2)
        · exact Or.inr (Or.inr ⟨k, hk0, hkm, hsuf.trans (List.suffix_cons c X'), hpre'⟩)

/-- Where can an occurrence of `m` sit when every separator `a` is replaced
by `a ++ ins`?  Either it avoids the inserted copies of `ins` (and then
already occurs with separator `a`), or it overlaps an inserted `ins` in one
of four ways. -/
theorem infix_joinSep_cases (m a ins : List Char) :
    ∀ qs : List (List Char), m <:+: joinSep (a ++ ins) qs →
      m <:+: joinSep a qs ∨ m <:+: ins ∨
      (∃ k, 0 < k ∧ k < m.length ∧ m.take k <:+ ins) ∨
      (∃ k, 0 < k ∧ k < m.length ∧ m.drop k <+: ins) ∨
      (∃ x y, m = x ++ ins ++ y)
  | [], h => by rw [joinSep] at h; exact Or.inl (by rw [joinSep]; exact h)
  | [q], h => by rw [joinSep] at h; exact Or.inl (by rw [joinSep]; exact h)
  | q :: q' :: qs, h => by
      rw [joinSep] at h
      have h' : m <:+: (q ++ a) ++ (ins ++ joinSep (a ++ ins) (q' :: qs)) := by
        simpa [List.append_assoc] using h
      rcases infix_append_cases m (q ++ a) _ h' with hA | hB | ⟨k, hk0, hkm, hsuf, hpre⟩
      · left
        rw [joinSep_cons a q (q' :: qs) (by simp)]
        exact hA.trans ⟨[], joinSep a (q' :: qs), by simp⟩
      · rcases infix_append_cases m ins _ hB with hB1 | hB2 | ⟨k, hk0, hkm, hsuf, _⟩
        · exact Or.inr (Or.inl hB1)
        · rcases infix_joinSep_cases m a ins (q' :: qs) hB2 with hD1 | hrest
          · left
            rw [joinSep_cons a q (q' :: qs) (by simp)]
            exact hD1.trans (List.suffix_append (q ++ a) _).isInfix
          · exact Or.inr hrest
        · exact Or.inr (Or.inr (Or.inl ⟨k, hk0, hkm, hsuf⟩))
      · by_cases hlen : m.length - k ≤ ins.length
        · have hd : m.drop k <+: ins :=
            prefix_append_of_le _ _ _ hpre (by simpa using hlen)
          exact Or.inr (Or.inr (Or.inr (Or.inl ⟨k, hk0, hkm, hd⟩)))
        · have h1 : m.drop k = (ins ++ joinSep (a ++ ins) (q' :: qs)).take (m.drop k).length :=
            List.prefix_iff_eq_take.mp hpre
          rw [List.take_append_eq_append_take,
            List.take_of_length_le (by simp; omega)] at h1
          simp only [List.length_drop] at h1
          refine Or.inr (Or.inr (Or.inr (Or.inr
            ⟨m.take k, (joinSep (a ++ ins) (q' :: qs)).take (m.length - k - ins.length), ?_⟩)))
          conv_lhs => rw [← List.take_append_drop k m]
          rw [h1, ← List.append_assoc]

theorem suffix_getLast? (x y : List Char) (hx : x ≠ []) (h : x <:+ y) :
    y.getLast? = x.getLast? := by
  obtain ⟨t, ht⟩ := h
  rw [← ht, List.getLast?_append_of_ne_nil t hx]

/-- Occurrences of `m` that never touch the last character of the separator
`a` survive when each `a` is replaced by `a ++ ins`. -/
theorem infix_joinSep_mono (m a ins : List Char) (c : Char)
    (hc : a.getLast? = some c) (hcm : c ∉ m) :
    ∀ qs : List (List Char), m <:+: joinSep a qs → m <:+: joinSep (a ++ ins) qs
  | [], h => by rw [joinSep] at h ⊢; exact h
  | [q], h => by rw [joinSep] at h ⊢; exact h
  | q :: q' :: qs, h => by
      rw [joinSep] at h
      have ha : a ≠ [] := by
        intro he; rw [he] at hc; simp at hc
      have h' : m <:+: (q ++ a) ++ joinSep a (q' :: qs) := by
        simpa [List.append_assoc] using h
      rcases infix_append_cases m (q ++ a) _ h' with hA | hB | ⟨k, hk0, hkm, hsuf, _⟩
      · rw [joinSep_cons (a ++ ins) q (q' :: qs) (by simp)]
        exact hA.trans ⟨[], ins ++ joinSep (a ++ ins) (q' :: qs), by simp⟩
      · rw [joinSep_cons (a ++ ins) q (q' :: qs) (by simp)]
        exact (infix_joinSep_mono m a ins c hc hcm (q' :: qs) hB).trans
          (List.suffix_append (q ++ (a ++ ins)) _).isInfix
      · exfalso
        have hne : m.take k ≠ [] := by
          intro he
          rcases List.take_eq_nil_iff.mp he with h0 | h0
          · omega
          · rw [h0] at hkm; simp at hkm
        have hlast : (q ++ a).getLast? = some c := by
          rw [List.getLast?_append_of_ne_nil q ha, hc]
        have := suffix_getLast? (m.take k) (q ++ a) hne hsuf
        rw [hlast] at this
        exact hcm (List.take_subset k m (List.mem_of_mem_getLast? (by rw [← this]; simp)))

/-- A fixed string `m` that does not occur in `s` and cannot overlap the
inserted text `ins` in any way still does not occur after
`s.replace(a, a ++ ins)`. -/
theorem not_infix_replaceAll (m a ins s : List Char) (ha : a ≠ [])
    (h2 : ¬ m <:+: ins)
    (h3 : ∀ k, k < m.length → 0 < k → ¬ (m.take k <:+ ins))
    (h4 : ∀ k, k < m.length → 0 < k → ¬ (m.drop k <+: ins))
    (h5 : ¬ ins <:+: m)
    (h : ¬ m <:+: s) : ¬ m <:+: replaceAll a (a ++ ins) s := by
  intro hocc
  obtain ⟨qs, _, hjoin, hrepl⟩ := replaceAll_chunks a (a ++ ins) ha s
  rw [hrepl] at hocc
  rcases infix_joinSep_cases m a ins qs hocc with
    h1 | h1 | ⟨k, hk0, hkm, h1⟩ | ⟨k, hk0, hkm, h1⟩ | ⟨x, y, h1⟩
  · exact h (hjoin ▸ h1)
  · exact h2 h1
  · exact h3 k hkm hk0 h1
  · exact h4 k hkm hk0 h1
  · exact h5 ⟨x, y, h1.symm⟩

/-- A fixed string `m` not containing the last character of `a` survives
`s.replace(a, a ++ ins)`. -/
theorem infix_replaceAll_mono (m a ins s : List Char) (c : Char)
    (hc : a.getLast? = some c) (hcm : c ∉ m) (h : m <:+: s) :
    m <:+: replaceAll a (a ++ ins) s := by
  have ha : a ≠ [] := by
    intro he; rw [he] at hc; simp at hc
  obtain ⟨qs, _, hjoin, hrepl⟩ := replaceAll_chunks a (a ++ ins) ha s
  rw [hrepl]
  exact infix_joinSep_mono m a ins c hc hcm qs (hjoin ▸ h)

theorem subAll_id_of_none (ts : List Tok) (rep : List Char → List Char)
    (s : List Char) (h : findSplit ts s = none) : subAll ts rep s = s := by
  rw [subAll]
  split
  · rfl
  · rename_i p m r hf
    rw [h] at hf
    simp at hf

theorem subAllLS_id_of_none (ts : List Tok) (rep : List Char → List Char)
    (b : Bool) (s : List Char) (h : findSplitLS ts b s = none) :
    subAllLS ts rep b s = s := by
  rw [subAllLS]
  split
  · rfl
  · rename_i p m r hf
    rw [h] at hf
    simp at hf

/-- If neither removal pattern matches and the fallback guard string is
absent, the unpatcher is the identity. -/
theorem unpatch_id_of_nomatch (T : List Char)
    (h1 : findSplitLS lineToks true T = none)
    (h2 : findSplit displayToks T = none)
    (h3 : isSubstr (lchars "debugLogs.length") T = false) :
    unpatch T = T := by
  rw [unpatch]
  rw [subAllLS_id_of_none lineToks _ true T h1]
  rw [subAll_id_of_none displayToks _ T h2]
  rw [h3]
  rfl

/-! ### Lemmas about the fallback brace scan -/

theorem fallbackScan_keep (post : List (List Char)) :
    ∀ ls : List (List Char), (∀ l ∈ ls, hasBlockMarker l = false) →
      fallbackScan 0 (ls ++ post) = ls ++ fallbackScan 0 post
  | [], _ => by simp
  | l :: ls, h => by
      rw [List.cons_append, fallbackScan]
      rw [h l (by simp)]
      simp only [if_neg (by omega : ¬ (0:Int) < 0)]
      rw [if_neg (by simp), fallbackScan_keep post ls (fun x hx => h x (by simp [hx]))]
      simp

theorem fallbackScan_nil_of_noMarker :
    ∀ ls : List (List Char), (∀ l ∈ ls, hasBlockMarker l = false) →
      fallbackScan 0 ls = ls := by
  intro ls h
  have h0 : fallbackScan 0 ([] : List (List Char)) = [] := by rw [fallbackScan]
  have := fallbackScan_keep [] ls h
  simpa [h0] using this

/-- While the counter stays positive, the scan drops the whole block and
resumes (with counter reset to `0`) right after the line that closes it. -/
theorem fallbackScan_skip (post : List (List Char)) :
    ∀ (block : List (List Char)) (skip : Int), 0 < skip →
      (∀ l ∈ block, hasBlockMarker l = false) →
      (∀ j, j < block.length → 0 < skip + ((block.take j).map braceDelta).sum) →
      skip + (block.map braceDelta).sum ≤ 0 →
      fallbackScan skip (block ++ post) = fallbackScan 0 post
  | [], skip, hskip, _, _, hclose => by
      simp at hclose
      omega
  | l :: block', skip, hskip, hmk, hopen, hclose => by
      rw [List.cons_append, fallbackScan]
      rw [hmk l (by simp)]
      simp only [if_neg (Bool.false_ne_true), if_pos hskip]
      by_cases hd : skip + braceDelta l ≤ 0
      · rw [if_pos hd]
        cases block' with
        | nil => simp
        | cons b bs =>
            exfalso
            have h1 := hopen 1 (by simp)
            simp at h1
            omega
      · rw [if_neg hd]
        refine fallbackScan_skip post block' (skip + braceDelta l) (by omega)
          (fun x hx => hmk x (by simp [hx])) ?_ ?_
        · intro j hj
          have h1 := hopen (j + 1) (by simp; omega)
          rw [List.take_succ_cons] at h1
          simp at h1 ⊢
          omega
        · simp at hclose ⊢
          omega

/-- If the counter never returns to zero, the scan drops everything to EOF. -/
theorem fallbackScan_skip_all :
    ∀ (block : List (List Char)) (skip : Int), 0 < skip →
      (∀ l ∈ block, hasBlockMarker l = false) →
      (∀ j, j ≤ block.length → 0 < skip + ((block.take j).map braceDelta).sum) →
      fallbackScan skip block = []
  | [], skip, hskip, _, _ => by rw [fallbackScan]
  | l :: block', skip, hskip, hmk, hopen => by
      rw [fallbackScan]
      rw [hmk l (by simp)]
      simp only [if_neg (Bool.false_ne_true), if_pos hskip]
      have h1 := hopen 1 (by simp)
      simp at h1
      rw [if_neg (by omega)]
      refine fallbackScan_skip_all block' (skip + braceDelta l) (by omega)
        (fun x hx => hmk x (by simp [hx])) ?_
      intro j hj
      have h2 := hopen (j + 1) (by simp; omega)
      rw [List.take_succ_cons] at h2
      simp at h2 ⊢
      omega

/-! ### Sublist lemmas (the patcher only inserts) -/

theorem joinSep_sublist (a ins : List Char) :
    ∀ qs : List (List Char), (joinSep a qs).Sublist (joinSep (a ++ ins) qs)
  | [] => by rw [joinSep, joinSep]
  | [q] => by rw [joinSep, joinSep]
  | q :: q' :: qs => by
      rw [joinSep, joinSep]
      simp only [List.append_assoc]
      refine List.Sublist.append (List.Sublist.refl q) ?_
      refine List.Sublist.append (List.Sublist.refl a) ?_
      exact (joinSep_sublist a ins (q' :: qs)).trans (List.sublist_append_right ins _)

theorem replaceAll_sublist (a ins s : List Char) (ha : a ≠ []) :
    s.Sublist (replaceAll a (a ++ ins) s) := by
  obtain ⟨qs, _, hjoin, hrepl⟩ := replaceAll_chunks a (a ++ ins) ha s
  rw [hrepl]
  conv_lhs => rw [hjoin]
  exact joinSep_sublist a ins qs

/-- Unfolding equation of `subAll` at a nonempty match. -/
theorem subAll_eq_pos (ts : List Tok) (rep : List Char → List Char)
    (s p m r : List Char) (hf : findSplit ts s = some (p, m, r)) (hm : m ≠ []) :
    subAll ts rep s = p ++ rep m ++ subAll ts rep r := by
  rw [subAll]
  split
  · rename_i h0
    rw [hf] at h0
    simp at h0
  · rename_i p' m' r' hf'
    rw [hf] at hf'
    simp only [Option.some.injEq, Prod.mk.injEq] at hf'
    obtain ⟨h1, h2, h3⟩ := hf'
    subst h1 h2 h3
    split
    · rename_i hm'
      exact absurd hm' hm
    · rfl

/-- Unfolding equation of `subAllLS` at a nonempty match. -/
theorem subAllLS_eq_pos (ts : List Tok) (rep : List Char → List Char)
    (b : Bool) (s p m r : List Char) (hf : findSplitLS ts b s = some (p, m, r))
    (hm : m ≠ []) :
    subAllLS ts rep b s = p ++ rep m ++ subAllLS ts rep (m.getLast? == some '\n') r := by
  rw [subAllLS]
  split
  · rename_i h0
    rw [hf] at h0
    simp at h0
  · rename_i p' m' r' hf'
    rw [hf] at hf'
    simp only [Option.some.injEq, Prod.mk.injEq] at hf'
    obtain ⟨h1, h2, h3⟩ := hf'
    subst h1 h2 h3
    split
    · rename_i hm'
      exact absurd hm' hm
    · rfl

/-- Unfolding equation of `subAll` at an empty match followed by more input. -/
theorem subAll_eq_nil_cons (ts : List Tok) (rep : List Char → List Char)
    (s p : List Char) (c : Char) (r' : List Char)
    (hf : findSplit ts s = some (p, [], c :: r')) :
    subAll ts rep s = p ++ rep [] ++ c :: subAll ts rep r' := by
  rw [subAll]
  split
  · rename_i h0
    rw [hf] at h0
    simp at h0
  · rename_i p' m' r'' hf'
    rw [hf] at hf'
    simp only [Option.some.injEq, Prod.mk.injEq] at hf'
    obtain ⟨h1, h2, h3⟩ := hf'
    subst h1 h2 h3
    split
    · rfl
    · rename_i hm'
      exact absurd rfl hm'

/-- Unfolding equation of `subAll` at an empty match at the very end. -/
theorem subAll_eq_nil_nil (ts : List Tok) (rep : List Char → List Char)
    (s p : List Char) (hf : findSplit ts s = some (p, [], [])) :
    subAll ts rep s = p ++ rep [] := by
  rw [subAll]
  split
  · rename_i h0
    rw [hf] at h0
    simp at h0
  · rename_i p' m' r'' hf'
    rw [hf] at hf'
    simp only [Option.some.injEq, Prod.mk.injEq] at hf'
    obtain ⟨h1, h2, h3⟩ := hf'
    subst h1 h2 h3
    split
    · rfl
    · rename_i hm'
      exact absurd rfl hm'

theorem subAll_sublist (ts : List Tok) (ext : List Char) (s : List Char) :
    s.Sublist (subAll ts (fun m => m ++ ext) s) := by
  cases hf : findSplit ts s with
      | none => rw [subAll_id_of_none ts _ s hf]
      | some pmr =>
          obtain ⟨p, m, r⟩ := pmr
          have hs := findSplit_eq ts s p m r hf
          by_cases hm : m = []
          · subst hm
            cases r with
            | nil =>
                rw [subAll_eq_nil_nil ts _ s p hf]
                simp only [List.append_nil] at hs
                rw [hs]
                exact List.sublist_append_left p ([] ++ ext)
            | cons c r' =>
                rw [subAll_eq_nil_cons ts _ s p c r' hf]
                rw [hs]
                simp only [List.append_nil, List.nil_append, List.append_assoc]
                refine List.Sublist.append (List.Sublist.refl p) ?_
                exact (List.Sublist.cons₂ c (subAll_sublist ts ext r')).trans
                  (List.sublist_append_right ext _)
          · rw [subAll_eq_pos ts _ s p m r hf hm]
            rw [hs]
            simp only [List.append_assoc]
            refine List.Sublist.append (List.Sublist.refl p) ?_
            refine List.Sublist.append (List.Sublist.refl m) ?_
            exact (subAll_sublist ts ext r).trans (List.sublist_append_right ext _)
termination_by s.length
decreasing_by
  all_goals first
    | (have h2 := congrArg List.length hs
       have h3 : 0 < m.length := List.length_pos.mpr hm
       simp at h2
       omega)
    | (have h2 := congrArg List.length hs
       simp at h2
       omega)

theorem patchRule1_sublist (s : List Char) : s.Sublist (patchRule1 s) := by
  rw [patchRule1]
  split
  · exact List.Sublist.refl s
  · exact subAll_sublist rule1Toks mount_log s

theorem patchRule2_sublist (s : List Char) : s.Sublist (patchRule2 s) := by
  rw [patchRule2]
  split
  · exact List.Sublist.refl s
  · exact replaceAll_sublist anchor2 ins2 s (by decide)

theorem patchRule3_sublist (s : List Char) : s.Sublist (patchRule3 s) := by
  rw [patchRule3]
  split
  · exact List.Sublist.refl s
  · exact replaceAll_sublist anchor3 ins3 s (by decide)

theorem patchRule4_sublist (s : List Char) : s.Sublist (patchRule4 s) := by
  rw [patchRule4]
  split
  · exact List.Sublist.refl s
  · exact replaceAll_sublist anchor4 ins4 s (by decide)

theorem patchRule5_sublist (s : List Char) : s.Sublist (patchRule5 s) := by
  rw [patchRule5]
  split
  · exact List.Sublist.refl s
  · exact replaceAll_sublist anchor5 ins5 s (by decide)

/-! ### A fuel-based executable mirror of the matcher and substitutions

The definitions above use well-founded recursion, which the kernel cannot
evaluate; the `…F`/`…E` definitions below are structurally recursive copies
(with a fuel counter where needed), proved pointwise equal to the originals,
so that concrete instances can be settled by `decide`. -/

mutual

/-- Fuel-based copy of `matchSeq`/`tryKs0`/`tryKs1` (structural in `fuel`). -/
def matchSeqF : Nat → List Tok → List Char → Option (List Char)
  | 0, _, _ => none
  | _ + 1, [], s => some s
  | f + 1, .lit l :: ts, s =>
      if l.isPrefixOf s then matchSeqF f ts (s.drop l.length) else none
  | f + 1, .plus p :: ts, s => tryKs1F f ts s (s.takeWhile p).length
  | f + 1, .star p :: ts, s => tryKs0F f ts s (s.takeWhile p).length
  | f + 1, .lazystar :: ts, s =>
      match matchSeqF f ts s with
      | some r => some r
      | none =>
          match s with
          | [] => none
          | _ :: s' => matchSeqF f (.lazystar :: ts) s'

/-- Fuel-based copy of `tryKs0`. -/
def tryKs0F : Nat → List Tok → List Char → Nat → Option (List Char)
  | 0, _, _, _ => none
  | f + 1, ts, s, 0 => matchSeqF f ts s
  | f + 1, ts, s, k + 1 =>
      match matchSeqF f ts (s.drop (k + 1)) with
      | some r => some r
      | none => tryKs0F f ts s k

/-- Fuel-based copy of `tryKs1`. -/
def tryKs1F : Nat → List Tok → List Char → Nat → Option (List Char)
  | 0, _, _, _ => none
  | _ + 1, _, _, 0 => none
  | f + 1, ts, s, k + 1 =>
      match matchSeqF f ts (s.drop (k + 1)) with
      | some r => some r
      | none => tryKs1F f ts s k

end

/-- With enough fuel the fuel-based matcher agrees with `matchSeq`. -/
theorem matcherF_eq : ∀ (f M : Nat),
    (∀ ts s, s.length + 2 ≤ M →
       ts.length * M * M + s.length * M < f → matchSeqF f ts s = matchSeq ts s) ∧
    (∀ ts s k, s.length + 2 ≤ M → k ≤ s.length →
       ts.length * M * M + (s.length + 1) * M + (k + 1) < f →
       tryKs0F f ts s k = tryKs0 ts s k) ∧
    (∀ ts s k, s.length + 2 ≤ M → k ≤ s.length →
       ts.length * M * M + (s.length + 1) * M + (k + 1) < f →
       tryKs1F f ts s k = tryKs1 ts s k) := by
  intro f
  induction f with
  | zero => exact fun M => ⟨fun _ _ _ h => absurd h (by omega),
      fun _ _ _ _ _ h => absurd h (by omega), fun _ _ _ _ _ h => absurd h (by omega)⟩
  | succ f ih =>
      intro M
      obtain ⟨ihm, iht0, iht1⟩ := ih M
      refine ⟨?_, ?_, ?_⟩
      · intro ts s hM hf
        have hM2 : 2 ≤ M := by omega
        have hMM : 2 * M ≤ M * M := Nat.mul_le_mul_right M hM2
        match ts with
        | [] => rw [matchSeqF, matchSeq]
        | .lit l :: ts =>
            simp only [List.length_cons, Nat.add_mul, Nat.one_mul] at hf
            rw [matchSeqF, matchSeq]
            by_cases hp : l.isPrefixOf s
            · have harg : ts.length * M * M + (s.drop l.length).length * M < f := by
                have h1 : (s.drop l.length).length ≤ s.length := by
                  simp [List.length_drop]
                have h2 := Nat.mul_le_mul_right M h1
                linarith
              rw [if_pos hp, if_pos hp, ihm ts (s.drop l.length)
                (by simp [List.length_drop]; omega) harg]
            · rw [if_neg hp, if_neg hp]
        | .plus p :: ts =>
            simp only [List.length_cons, Nat.add_mul, Nat.one_mul] at hf
            have hk := (List.takeWhile_prefix p (l := s)).length_le
            rw [matchSeqF, matchSeq]
            refine iht1 ts s (s.takeWhile p).length hM hk ?_
            have h1 : (s.takeWhile p).length + 1 ≤ M - 1 := by omega
            have h2 : (s.length + 1) * M + ((s.takeWhile p).length + 1) <
                s.length * M + M * M := by
              simp only [Nat.add_mul, Nat.one_mul]
              have ht : (s.takeWhile p).length + 1 < M := by omega
              linarith
            linarith
        | .star p :: ts =>
            simp only [List.length_cons, Nat.add_mul, Nat.one_mul] at hf
            have hk := (List.takeWhile_prefix p (l := s)).length_le
            rw [matchSeqF, matchSeq]
            refine iht0 ts s (s.takeWhile p).length hM hk ?_
            have h2 : (s.length + 1) * M + ((s.takeWhile p).length + 1) <
                s.length * M + M * M := by
              simp only [Nat.add_mul, Nat.one_mul]
              have ht : (s.takeWhile p).length + 1 < M := by omega
              linarith
            linarith
        | .lazystar :: ts =>
            simp only [List.length_cons, Nat.add_mul, Nat.one_mul] at hf
            have hin : matchSeqF f ts s = matchSeq ts s :=
              ihm ts s hM (by linarith)
            match s with
            | [] =>
                rw [matchSeqF, matchSeq, hin]
            | c :: s' =>
                rw [matchSeqF, matchSeq, hin]
                cases matchSeq ts (c :: s') with
                | some r => rfl
                | none =>
                    refine ihm (.lazystar :: ts) s' (by simp at hM ⊢; omega) ?_
                    simp only [List.length_cons, Nat.add_mul, Nat.one_mul] at hf ⊢
                    have : s'.length * M + M = (s'.length + 1) * M := by ring
                    linarith [hM2]
      · intro ts s k hM hk hf
        match k with
        | 0 =>
            rw [tryKs0F, tryKs0]
            refine ihm ts s hM ?_
            simp only [Nat.add_mul, Nat.one_mul] at hf
            linarith
        | k + 1 =>
            rw [tryKs0F, tryKs0]
            have harg : ts.length * M * M + (s.drop (k + 1)).length * M < f := by
              have h1 : (s.drop (k + 1)).length ≤ s.length := by
                simp [List.length_drop]
              have h2 := Nat.mul_le_mul_right M h1
              simp only [Nat.add_mul, Nat.one_mul] at hf
              linarith
            rw [ihm ts (s.drop (k + 1)) (by simp [List.length_drop]; omega) harg]
            cases matchSeq ts (s.drop (k + 1)) with
            | some r => rfl
            | none => exact iht0 ts s k hM (by omega) (by omega)
      · intro ts s k hM hk hf
        match k with
        | 0 => rw [tryKs1F, tryKs1]
        | k + 1 =>
            rw [tryKs1F, tryKs1]
            have harg : ts.length * M * M + (s.drop (k + 1)).length * M < f := by
              have h1 : (s.drop (k + 1)).length ≤ s.length := by
                simp [List.length_drop]
              have h2 := Nat.mul_le_mul_right M h1
              simp only [Nat.add_mul, Nat.one_mul] at hf
              linarith
            rw [ihm ts (s.drop (k + 1)) (by simp [List.length_drop]; omega) harg]
            cases matchSeq ts (s.drop (k + 1)) with
            | some r => rfl
            | none => exact iht1 ts s k hM (by omega) (by omega)

/-- Executable matcher: `matchSeqF` with sufficient fuel. -/
def matchSeqE (ts : List Tok) (s : List Char) : Option (List Char) :=
  matchSeqF ((ts.length + 1) * (s.length + 2) * (s.length + 2)) ts s

theorem matchSeqE_eq (ts : List Tok) (s : List Char) :
    matchSeqE ts s = matchSeq ts s := by
  refine (matcherF_eq ((ts.length + 1) * (s.length + 2) * (s.length + 2))
    (s.length + 2)).1 ts s (by omega) ?_
  nlinarith [s.length.zero_le, ts.length.zero_le]

/-- Executable copy of `findSplit`. -/
def findSplitE (ts : List Tok) (s : List Char) :
    Option (List Char × List Char × List Char) :=
  match matchSeqE ts s with
  | some r => some ([], s.take (s.length - r.length), r)
  | none =>
    match s with
    | [] => none
    | c :: s' => (findSplitE ts s').map fun pmr => (c :: pmr.1, pmr.2.1, pmr.2.2)

theorem findSplitE_eq (ts : List Tok) : ∀ s, findSplitE ts s = findSplit ts s
  | [] => by rw [findSplitE, findSplit, matchSeqE_eq]
  | c :: s' => by
      rw [findSplitE, findSplit, matchSeqE_eq, findSplitE_eq ts s']

/-- Executable copy of `findSplitLS`. -/
def findSplitLSE (ts : List Tok) : Bool → List Char →
    Option (List Char × List Char × List Char)
  | atLS, s =>
    match (if atLS then matchSeqE ts s else none) with
    | some r => some ([], s.take (s.length - r.length), r)
    | none =>
      match s with
      | [] => none
      | c :: s' => (findSplitLSE ts (c == '\n') s').map fun pmr => (c :: pmr.1, pmr.2.1, pmr.2.2)

theorem findSplitLSE_eq (ts : List Tok) : ∀ b s, findSplitLSE ts b s = findSplitLS ts b s
  | b, [] => by rw [findSplitLSE, findSplitLS, matchSeqE_eq]
  | b, c :: s' => by
      rw [findSplitLSE, findSplitLS, matchSeqE_eq, findSplitLSE_eq ts (c == '\n') s']

/-- Fuel-based executable copy of `subAll`. -/
def subAllF (ts : List Tok) (rep : List Char → List Char) : Nat → List Char → List Char
  | 0, s => s
  | f + 1, s =>
    match findSplitE ts s with
    | none => s
    | some (p, m, r) =>
        if m = [] then
          match r with
          | [] => p ++ rep []
          | c :: r' => p ++ rep [] ++ c :: subAllF ts rep f r'
        else p ++ rep m ++ subAllF ts rep f r

theorem subAllF_eq (ts : List Tok) (rep : List Char → List Char) :
    ∀ f s, s.length < f → subAllF ts rep f s = subAll ts rep s := by
  intro f
  induction f with
  | zero => exact fun s h => absurd h (by omega)
  | succ f ih =>
      intro s hs
      rw [subAllF, findSplitE_eq]
      cases hf : findSplit ts s with
      | none => rw [subAll_id_of_none ts rep s hf]
      | some pmr =>
          obtain ⟨p, m, r⟩ := pmr
          have hlen := congrArg List.length (findSplit_eq ts s p m r hf)
          simp at hlen
          by_cases hm : m = []
          · subst hm
            cases r with
            | nil =>
                rw [subAll_eq_nil_nil ts rep s p hf]
                rfl
            | cons c r' =>
                rw [subAll_eq_nil_cons ts rep s p c r' hf]
                show p ++ rep [] ++ c :: subAllF ts rep f r' = _
                rw [ih r' (by simp at hlen; omega)]
          · simp only [if_neg hm]
            rw [subAll_eq_pos ts rep s p m r hf hm,
              ih r (by have := List.length_pos.mpr hm; omega)]

/-- Executable `subAll`. -/
def subAllE (ts : List Tok) (rep : List Char → List Char) (s : List Char) : List Char :=
  subAllF ts rep (s.length + 1) s

theorem subAllE_eq (ts : List Tok) (rep : List Char → List Char) (s : List Char) :
    subAllE ts rep s = subAll ts rep s :=
  subAllF_eq ts rep (s.length + 1) s (by omega)

/-- Fuel-based executable copy of `subAllLS`. -/
def subAllLSF (ts : List Tok) (rep : List Char → List Char) : Nat → Bool → List Char → List Char
  | 0, _, s => s
  | f + 1, b, s =>
    match findSplitLSE ts b s with
    | none => s
    | some (p, m, r) =>
        if m = [] then
          match r with
          | [] => p ++ rep []
          | c :: r' => p ++ rep [] ++ c :: subAllLSF ts rep f (c == '\n') r'
        else p ++ rep m ++ subAllLSF ts rep f (m.getLast? == some '\n') r

theorem subAllLSF_eq (ts : List Tok) (rep : List Char → List Char) :
    ∀ f b s, s.length < f → subAllLSF ts rep f b s = subAllLS ts rep b s := by
  intro f
  induction f with
  | zero => exact fun b s h => absurd h (by omega)
  | succ f ih =>
      intro b s hs
      rw [subAllLSF, findSplitLSE_eq]
      cases hf : findSplitLS ts b s with
      | none => rw [subAllLS_id_of_none ts rep b s hf]
      | some pmr =>
          obtain ⟨p, m, r⟩ := pmr
          have hlen := congrArg List.length (findSplitLS_eq ts b s p m r hf)
          simp at hlen
          by_cases hm : m = []
          · subst hm
            cases r with
            | nil =>
                have heq : subAllLS ts rep b s = p ++ rep [] := by
                  rw [subAllLS]
                  split
                  · rename_i h0
                    rw [hf] at h0
                    simp at h0
                  · rename_i p' m' r' hf'
                    rw [hf] at hf'
                    simp only [Option.some.injEq, Prod.mk.injEq] at hf'
                    obtain ⟨h1, h2, h3⟩ := hf'
                    subst h1 h2 h3
                    split
                    · rfl
                    · rename_i hm'
                      exact absurd rfl hm'
                rw [heq]
                rfl
            | cons c r' =>
                have heq : subAllLS ts rep b s = p ++ rep [] ++ c :: subAllLS ts rep (c == '\n') r' := by
                  rw [subAllLS]
                  split
                  · rename_i h0
                    rw [hf] at h0
                    simp at h0
                  · rename_i p' m' r'' hf'
                    rw [hf] at hf'
                    simp only [Option.some.injEq, Prod.mk.injEq] at hf'
                    obtain ⟨h1, h2, h3⟩ := hf'
                    subst h1 h2 h3
                    split
                    · rfl
                    · rename_i hm'
                      exact absurd rfl hm'
                rw [heq]
                show p ++ rep [] ++ c :: subAllLSF ts rep f (c == '\n') r' = _
                rw [ih (c == '\n') r' (by simp at hlen; omega)]
          · simp only [if_neg hm]
            rw [subAllLS_eq_pos ts rep b s p m r hf hm,
              ih (m.getLast? == some '\n') r (by have := List.length_pos.mpr hm; omega)]

/-- Executable `subAllLS`. -/
def subAllLSE (ts : List Tok) (rep : List Char → List Char) (b : Bool) (s : List Char) : List Char :=
  subAllLSF ts rep (s.length + 1) b s

theorem subAllLSE_eq (ts : List Tok) (rep : List Char → List Char) (b : Bool) (s : List Char) :
    subAllLSE ts rep b s = subAllLS ts rep b s :=
  subAllLSF_eq ts rep (s.length + 1) b s (by omega)

/-- Fuel-based executable copy of `replaceAll`. -/
def replaceAllF (a b : List Char) : Nat → List Char → List Char
  | 0, s => s
  | _ + 1, [] => []
  | f + 1, c :: s =>
      if a ≠ [] ∧ a.isPrefixOf (c :: s) then
        b ++ replaceAllF a b f (List.drop a.length (c :: s))
      else
        c :: replaceAllF a b f s

theorem replaceAllF_eq (a b : List Char) :
    ∀ f s, s.length < f → replaceAllF a b f s = replaceAll a b s := by
  intro f
  induction f with
  | zero => exact fun s h => absurd h (by omega)
  | succ f ih =>
      intro s hs
      cases s with
      | nil => rw [replaceAllF, replaceAll]
      | cons c s' =>
          rw [replaceAllF, replaceAll]
          by_cases h : a ≠ [] ∧ a.isPrefixOf (c :: s')
          · rw [if_pos h, dif_pos h, ih (List.drop a.length (c :: s'))]
            have h0 : 0 < a.length := List.length_pos.mpr h.1
            simp at hs ⊢
            omega
          · rw [if_neg h, dif_neg h, ih s' (by simp at hs; omega)]

/-- Executable `replaceAll`. -/
def replaceAllE (a b s : List Char) : List Char :=
  replaceAllF a b (s.length + 1) s

theorem replaceAllE_eq (a b s : List Char) : replaceAllE a b s = replaceAll a b s :=
  replaceAllF_eq a b (s.length + 1) s (by omega)

/-- Executable copy of the whole patcher. -/
def patchE (content : List Char) : List Char :=
  let s1 := if isSubstr marker1 content then content
            else subAllE rule1Toks (fun m => m ++ mount_log) content
  let s2 := if isSubstr marker2 s1 then s1 else replaceAllE anchor2 (anchor2 ++ ins2) s1
  let s3 := if isSubstr marker3 s2 then s2 else replaceAllE anchor3 (anchor3 ++ ins3) s2
  let s4 := if isSubstr marker4 s3 then s3 else replaceAllE anchor4 (anchor4 ++ ins4) s3
  let s5 := if isSubstr marker5 s4 then s4 else replaceAllE anchor5 (anchor5 ++ ins5) s4
  s5

theorem patchE_eq (content : List Char) : patchE content = patch content := by
  rw [patchE, patch, patchRule1, patchRule2, patchRule3, patchRule4, patchRule5]
  simp only [subAllE_eq, replaceAllE_eq]

/-- Executable copy of the whole unpatcher. -/
def unpatchE (content : List Char) : List Char :=
  let c1 := subAllLSE lineToks (fun _ => []) true content
  let c2 := subAllE displayToks (fun _ => []) c1
  if isSubstr (lchars "debugLogs.length") c2 then
    joinNL (fallbackScan 0 (splitNL c2))
  else c2

theorem unpatchE_eq (content : List Char) : unpatchE content = unpatch content := by
  rw [unpatchE, unpatch]
  simp only [subAllLSE_eq, subAllE_eq]

/-! ### Indexed view of the five patcher rules (used by several claims) -/

/-- The detection marker of rule `i`. -/
def ruleMarker : Fin 5 → List Char
  | ⟨0, _⟩ => marker1
  | ⟨1, _⟩ => marker2
  | ⟨2, _⟩ => marker3
  | ⟨3, _⟩ => marker4
  | ⟨4, _⟩ => marker5
  | ⟨n + 5, h⟩ => absurd h (by omega)

/-- Applying rule `i` alone. -/
def ruleApply : Fin 5 → List Char → List Char
  | ⟨0, _⟩ => patchRule1
  | ⟨1, _⟩ => patchRule2
  | ⟨2, _⟩ => patchRule3
  | ⟨3, _⟩ => patchRule4
  | ⟨4, _⟩ => patchRule5
  | ⟨n + 5, h⟩ => absurd h (by omega)

/-- Whether rule `i`'s anchor is found in `content` (for rule 1: whether the
structural regex matches anywhere; for rules 2–5: whether the literal anchor
occurs). -/
def ruleAnchorFound : Fin 5 → List Char → Bool
  | ⟨0, _⟩, content => (findSplitE rule1Toks content).isSome
  | ⟨1, _⟩, content => isSubstr anchor2 content
  | ⟨2, _⟩, content => isSubstr anchor3 content
  | ⟨3, _⟩, content => isSubstr anchor4 content
  | ⟨4, _⟩, content => isSubstr anchor5 content
  | ⟨n + 5, h⟩, _ => absurd h (by omega)



/-! ### Shape of a rule-1 regex match (towards patcher idempotence)

A successful `matchSeq` run decomposes its input into one consumed segment
per token; conversely any such decomposition guarantees a match.  This is
used to show that the insertions of rules 2–5 can never create a fresh
match of rule 1's structural regex. -/

/-- What one token consumes. -/
def TokM : Tok → List Char → Prop
  | .lit l, seg => seg = l
  | .plus p, seg => seg ≠ [] ∧ ∀ c ∈ seg, p c = true
  | .star p, seg => ∀ c ∈ seg, p c = true
  | .lazystar, _ => True

theorem tryKs1_spec (ts : List Tok) (s : List Char) :
    ∀ (k : Nat) (r : List Char), tryKs1 ts s k = some r →
      ∃ j, 0 < j ∧ j ≤ k ∧ matchSeq ts (s.drop j) = some r := by
  intro k
  induction k with
  | zero => intro r h; rw [tryKs1] at h; cases h
  | succ k ih =>
      intro r h
      rw [tryKs1] at h
      cases hm : matchSeq ts (s.drop (k + 1)) with
      | some r' =>
          rw [hm] at h
          cases h
          exact ⟨k + 1, by omega, le_rfl, hm⟩
      | none =>
          rw [hm] at h
          obtain ⟨j, hj0, hjk, hj⟩ := ih r h
          exact ⟨j, hj0, by omega, hj⟩

theorem tryKs0_spec (ts : List Tok) (s : List Char) :
    ∀ (k : Nat) (r : List Char), tryKs0 ts s k = some r →
      ∃ j, j ≤ k ∧ matchSeq ts (s.drop j) = some r := by
  intro k
  induction k with
  | zero =>
      intro r h
      rw [tryKs0] at h
      exact ⟨0, le_rfl, h⟩
  | succ k ih =>
      intro r h
      rw [tryKs0] at h
      cases hm : matchSeq ts (s.drop (k + 1)) with
      | some r' =>
          rw [hm] at h
          cases h
          exact ⟨k + 1, le_rfl, hm⟩
      | none =>
          rw [hm] at h
          obtain ⟨j, hjk, hj⟩ := ih r h
          exact ⟨j, by omega, hj⟩

theorem tryKs1_complete (ts : List Tok) (s : List Char) :
    ∀ (k j : Nat) (r : List Char), 0 < j → j ≤ k →
      matchSeq ts (s.drop j) = some r → tryKs1 ts s k ≠ none := by
  intro k
  induction k with
  | zero => intro j r hj0 hjk; omega
  | succ k ih =>
      intro j r hj0 hjk hj
      rw [tryKs1]
      cases hm : matchSeq ts (s.drop (k + 1)) with
      | some r' => simp
      | none =>
          simp only
          by_cases hje : j = k + 1
          · rw [hje] at hj
            rw [hj] at hm
            cases hm
          · exact ih j r hj0 (by omega) hj

theorem tryKs0_complete (ts : List Tok) (s : List Char) :
    ∀ (k j : Nat) (r : List Char), j ≤ k →
      matchSeq ts (s.drop j) = some r → tryKs0 ts s k ≠ none := by
  intro k
  induction k with
  | zero =>
      intro j r hjk hj
      rw [tryKs0]
      have hje : j = 0 := by omega
      rw [hje] at hj
      simp at hj
      rw [hj]
      simp
  | succ k ih =>
      intro j r hjk hj
      rw [tryKs0]
      cases hm : matchSeq ts (s.drop (k + 1)) with
      | some r' => simp
      | none =>
          simp only
          by_cases hje : j = k + 1
          · rw [hje] at hj
            rw [hj] at hm
            cases hm
          · exact ih j r (by omega) hj

theorem take_all_of_takeWhile (p : Char → Bool) (s : List Char) (j : Nat)
    (hj : j ≤ (s.takeWhile p).length) : ∀ c ∈ s.take j, p c = true := by
  intro c hc
  have hpre : s.takeWhile p <+: s := List.takeWhile_prefix p
  obtain ⟨t, ht⟩ := hpre
  have h1 : s.take j = (s.takeWhile p ++ t).take j := by rw [ht]
  rw [List.take_append_eq_append_take, Nat.sub_eq_zero_of_le hj,
    List.take_zero, List.append_nil] at h1
  rw [h1] at hc
  exact List.mem_takeWhile_imp (List.take_subset j _ hc)

/-- Soundness: a match consumes one segment per token. -/
theorem matchSeq_segs : ∀ (ts : List Tok) (s r : List Char),
    matchSeq ts s = some r →
    ∃ segs : List (List Char), List.Forall₂ TokM ts segs ∧ s = segs.join ++ r
  | [], s, r, h => by
      rw [matchSeq] at h
      cases h
      exact ⟨[], List.Forall₂.nil, by simp⟩
  | .lit l :: ts, s, r, h => by
      rw [matchSeq] at h
      by_cases hp : l.isPrefixOf s
      · rw [if_pos hp] at h
        obtain ⟨segs, hF, hjoin⟩ := matchSeq_segs ts (s.drop l.length) r h
        refine ⟨l :: segs, List.Forall₂.cons rfl hF, ?_⟩
        obtain ⟨t, ht⟩ := List.isPrefixOf_iff_prefix.mp hp
        have hdrop : s.drop l.length = t := by rw [← ht, List.drop_left]
        rw [hdrop] at hjoin
        rw [← ht, hjoin]
        simp
      · rw [if_neg hp] at h
        cases h
  | .plus p :: ts, s, r, h => by
      rw [matchSeq] at h
      obtain ⟨j, hj0, hjk, hj⟩ := tryKs1_spec ts s _ r h
      obtain ⟨segs, hF, hjoin⟩ := matchSeq_segs ts (s.drop j) r hj
      refine ⟨s.take j :: segs, List.Forall₂.cons ⟨?_, take_all_of_takeWhile p s j hjk⟩ hF, ?_⟩
      · intro he
        rw [List.take_eq_nil_iff] at he
        cases he with
        | inl h0 => omega
        | inr hs =>
            subst hs
            simp at hjk
            omega
      · have hjc : (s.take j :: segs).join = s.take j ++ segs.join := by simp
        rw [hjc, List.append_assoc, ← hjoin, List.take_append_drop]
  | .star p :: ts, s, r, h => by
      rw [matchSeq] at h
      obtain ⟨j, hjk, hj⟩ := tryKs0_spec ts s _ r h
      obtain ⟨segs, hF, hjoin⟩ := matchSeq_segs ts (s.drop j) r hj
      refine ⟨s.take j :: segs, List.Forall₂.cons (take_all_of_takeWhile p s j hjk) hF, ?_⟩
      have hjc : (s.take j :: segs).join = s.take j ++ segs.join := by simp
      rw [hjc, List.append_assoc, ← hjoin, List.take_append_drop]
  | .lazystar :: ts, s, r, h => by
      cases s with
      | nil =>
          rw [matchSeq] at h
          cases hm : matchSeq ts [] with
          | some r' =>
              rw [hm] at h
              simp at h
              subst h
              obtain ⟨segs, hF, hjoin⟩ := matchSeq_segs ts [] r' hm
              exact ⟨[] :: segs, List.Forall₂.cons trivial hF, by simpa using hjoin⟩
          | none => rw [hm] at h; simp at h
      | cons c s' =>
          rw [matchSeq] at h
          cases hm : matchSeq ts (c :: s') with
          | some r' =>
              rw [hm] at h
              simp at h
              subst h
              obtain ⟨segs, hF, hjoin⟩ := matchSeq_segs ts (c :: s') r' hm
              exact ⟨[] :: segs, List.Forall₂.cons trivial hF, by simpa using hjoin⟩
          | none =>
              rw [hm] at h
              simp at h
              obtain ⟨segs, hF, hjoin⟩ := matchSeq_segs (.lazystar :: ts) s' r h
              cases hF with
              | cons h1 hF' =>
                  rename_i seg segs'
                  refine ⟨(c :: seg) :: segs', List.Forall₂.cons trivial hF', ?_⟩
                  simp at hjoin ⊢
                  rw [hjoin]
termination_by ts s r h => (ts.length, s.length)

theorem takeWhile_length_ge (p : Char → Bool) :
    ∀ (seg rest : List Char), (∀ c ∈ seg, p c = true) →
      seg.length ≤ ((seg ++ rest).takeWhile p).length
  | [], _, _ => by simp
  | c :: cs, rest, hall => by
      have hc : p c = true := hall c (by simp)
      have hrest := takeWhile_length_ge p cs rest (fun x hx => hall x (by simp [hx]))
      simp [List.takeWhile_cons, hc]
      omega

theorem lazystar_step (ts : List Tok) (s : List Char)
    (h : matchSeq ts s ≠ none) : matchSeq (.lazystar :: ts) s ≠ none := by
  cases s with
  | nil =>
      rw [matchSeq]
      cases hms : matchSeq ts [] with
      | some r => simp
      | none => exact absurd hms h
  | cons c s' =>
      rw [matchSeq]
      cases hms : matchSeq ts (c :: s') with
      | some r => simp
      | none => exact absurd hms h

theorem lazystar_advance (ts : List Tok) (c : Char) (s' : List Char)
    (h : matchSeq (.lazystar :: ts) s' ≠ none) :
    matchSeq (.lazystar :: ts) (c :: s') ≠ none := by
  rw [matchSeq]
  cases hms : matchSeq ts (c :: s') with
  | some r => simp
  | none => simpa using h

/-- Completeness: any segment decomposition yields a match (of some span). -/
theorem matchSeq_complete : ∀ (ts : List Tok) (segs : List (List Char))
    (ext : List Char), List.Forall₂ TokM ts segs →
    matchSeq ts (segs.join ++ ext) ≠ none
  | [], segs, ext, hF => by
      cases hF
      rw [matchSeq]
      simp
  | .lit l :: ts, segs, ext, hF => by
      cases hF with
      | cons h1 hF' =>
          rename_i seg segs'
          rw [TokM] at h1
          rw [h1]
          rw [matchSeq]
          have hp : l.isPrefixOf ((l :: segs').join ++ ext) := by
            rw [List.isPrefixOf_iff_prefix]
            refine ⟨segs'.join ++ ext, ?_⟩
            simp [List.append_assoc]
          rw [if_pos hp]
          have hdrop : ((l :: segs').join ++ ext).drop l.length = segs'.join ++ ext := by
            have hjc : (l :: segs').join = l ++ segs'.join := by simp
            rw [hjc, List.append_assoc, List.drop_left]
          rw [hdrop]
          exact matchSeq_complete ts segs' ext hF'
  | .plus p :: ts, segs, ext, hF => by
      cases hF with
      | cons h1 hF' =>
          rename_i seg segs'
          obtain ⟨hne, hall⟩ := h1
          rw [matchSeq]
          have hjoin : (seg :: segs').join ++ ext = seg ++ (segs'.join ++ ext) := by
            simp
          have htw : seg.length ≤ (((seg :: segs').join ++ ext).takeWhile p).length := by
            rw [hjoin]
            exact takeWhile_length_ge p seg (segs'.join ++ ext) hall
          have hdrop : ((seg :: segs').join ++ ext).drop seg.length = segs'.join ++ ext := by
            rw [hjoin, List.drop_left]
          intro hnone
          cases hms : matchSeq ts (segs'.join ++ ext) with
          | none => exact absurd hms (matchSeq_complete ts segs' ext hF')
          | some r =>
              refine tryKs1_complete ts ((seg :: segs').join ++ ext) _ seg.length r
                (List.length_pos.mpr hne) htw ?_ hnone
              rw [hdrop]
              exact hms
  | .star p :: ts, segs, ext, hF => by
      cases hF with
      | cons h1 hF' =>
          rename_i seg segs'
          rw [matchSeq]
          have hjoin : (seg :: segs').join ++ ext = seg ++ (segs'.join ++ ext) := by
            simp
          have htw : seg.length ≤ (((seg :: segs').join ++ ext).takeWhile p).length := by
            rw [hjoin]
            exact takeWhile_length_ge p seg (segs'.join ++ ext) h1
          have hdrop : ((seg :: segs').join ++ ext).drop seg.length = segs'.join ++ ext := by
            rw [hjoin, List.drop_left]
          intro hnone
          cases hms : matchSeq ts (segs'.join ++ ext) with
          | none => exact absurd hms (matchSeq_complete ts segs' ext hF')
          | some r =>
              refine tryKs0_complete ts ((seg :: segs').join ++ ext) _ seg.length r htw ?_ hnone
              rw [hdrop]
              exact hms
  | .lazystar :: ts, segs, ext, hF => by
      cases hF with
      | cons h1 hF' =>
          rename_i seg segs'
          clear h1
          induction seg with
          | nil =>
              have hj : (([] : List Char) :: segs').join ++ ext = segs'.join ++ ext := by simp
              rw [hj]
              exact lazystar_step ts _ (matchSeq_complete ts segs' ext hF')
          | cons c seg' ihseg =>
              have hj : ((c :: seg') :: segs').join ++ ext
                  = c :: ((seg' :: segs').join ++ ext) := by simp
              rw [hj]
              exact lazystar_advance ts c _ ihseg
termination_by ts segs ext hF => (ts.length, segs.join.length)


/-! ### Leftmost-search characterisations and brace-context facts -/

/-- A failed leftmost search implies the matcher fails at the start. -/
theorem findSplit_none_head (ts : List Tok) (s : List Char)
    (h : findSplit ts s = none) : matchSeq ts s = none := by
  cases s with
  | nil =>
      rw [findSplit] at h
      cases hm : matchSeq ts [] with
      | some r => rw [hm] at h; simp at h
      | none => rfl
  | cons c s' =>
      rw [findSplit] at h
      cases hm : matchSeq ts (c :: s') with
      | some r => rw [hm] at h; simp at h
      | none => rfl

/-- A failed leftmost search fails on the tail as well. -/
theorem findSplit_none_tail (ts : List Tok) (c : Char) (s' : List Char)
    (h : findSplit ts (c :: s') = none) : findSplit ts s' = none := by
  rw [findSplit] at h
  cases hm : matchSeq ts (c :: s') with
  | some r => rw [hm] at h; simp at h
  | none =>
      rw [hm] at h
      cases hfs : findSplit ts s' with
      | none => rfl
      | some pmr => rw [hfs] at h; simp at h

/-- If the leftmost search fails, no split of the text admits a match. -/
theorem findSplit_none_all (ts : List Tok) :
    ∀ (x s y : List Char), findSplit ts s = none → s = x ++ y →
      matchSeq ts y = none := by
  intro x
  induction x with
  | nil =>
      intro s y h hxy
      have hy : y = s := by simpa using hxy.symm
      rw [hy]
      exact findSplit_none_head ts s h
  | cons c x' ih =>
      intro s y h hxy
      cases s with
      | nil => simp at hxy
      | cons d s' =>
          simp only [List.cons_append, List.cons.injEq] at hxy
          obtain ⟨-, hs⟩ := hxy
          exact ih s' y (findSplit_none_tail ts d s' h) hs

/-- The matched span of a successful leftmost search is a real match. -/
theorem findSplit_some_match (ts : List Tok) : ∀ (s p m r : List Char),
    findSplit ts s = some (p, m, r) → matchSeq ts (m ++ r) = some r := by
  intro s
  induction s with
  | nil =>
      intro p m r h
      rw [findSplit] at h
      cases hm : matchSeq ts [] with
      | none => rw [hm] at h; simp at h
      | some r' =>
          rw [hm] at h
          simp only [Option.some.injEq, Prod.mk.injEq] at h
          obtain ⟨h1, h2, h3⟩ := h
          obtain ⟨x, hx⟩ := matchSeq_suffix ts [] r' hm
          rw [take_of_suffix x r' [] hx] at h2
          subst h3
          rw [← h2, hx]
          exact hm
  | cons c s' ih =>
      intro p m r h
      rw [findSplit] at h
      cases hm : matchSeq ts (c :: s') with
      | some r' =>
          rw [hm] at h
          simp only [Option.some.injEq, Prod.mk.injEq] at h
          obtain ⟨h1, h2, h3⟩ := h
          obtain ⟨x, hx⟩ := matchSeq_suffix ts (c :: s') r' hm
          rw [take_of_suffix x r' (c :: s') hx] at h2
          subst h3
          rw [← h2, hx]
          exact hm
      | none =>
          rw [hm] at h
          cases hfs : findSplit ts s' with
          | none => rw [hfs] at h; simp at h
          | some pmr =>
              obtain ⟨p', m', r''⟩ := pmr
              rw [hfs] at h
              simp only [Option.map_some', Option.some.injEq, Prod.mk.injEq] at h
              obtain ⟨h1, h2, h3⟩ := h
              subst h2 h3
              exact ih p' _ _ hfs

/-- Every closing brace inside the scanned list is preceded by a
non-whitespace character (`prev` holds the character just before the
current position). -/
def braceCtxOK : Char → List Char → Bool
  | _, [] => true
  | prev, c :: s => (if c = '\x7d' then !isPyWS prev else true) && braceCtxOK c s

/-- Every closing brace of the list has a preceding character, and that
character is never whitespace.  All four single-line insertion texts
satisfy this (their braces close template interpolations). -/
def bracePrecededOK : List Char → Bool
  | [] => true
  | c :: s => !(c == '\x7d') && braceCtxOK c s

theorem braceCtx_split : ∀ (u : List Char) (prev : Char) (v : List Char),
    braceCtxOK prev (u ++ '\x7d' :: v) = true →
    ∃ w, (prev :: u).getLast? = some w ∧ isPyWS w = false
  | [], prev, v, h => by
      rw [List.nil_append, braceCtxOK] at h
      simp only [if_pos rfl, Bool.and_eq_true] at h
      exact ⟨prev, rfl, by simpa using h.1⟩
  | c :: u', prev, v, h => by
      rw [List.cons_append, braceCtxOK, Bool.and_eq_true] at h
      obtain ⟨w, hw, hws⟩ := braceCtx_split u' c v h.2
      refine ⟨w, ?_, hws⟩
      rw [List.getLast?_cons_cons]
      exact hw

/-- If the whole-string brace-context check passes, no closing brace is
preceded by a whitespace character. -/
theorem bracePreceded_split (s : List Char) (hs : bracePrecededOK s = true)
    (u v : List Char) (w : Char) (h : s = (u ++ [w]) ++ '\x7d' :: v) :
    isPyWS w = false := by
  subst h
  cases u with
  | nil =>
      simp only [List.nil_append, List.cons_append] at hs
      rw [bracePrecededOK, Bool.and_eq_true] at hs
      obtain ⟨-, h2⟩ := hs
      rw [braceCtxOK, if_pos rfl, Bool.and_eq_true] at h2
      simpa using h2.1
  | cons c u' =>
      simp only [List.cons_append] at hs
      rw [bracePrecededOK, Bool.and_eq_true] at hs
      obtain ⟨-, h2⟩ := hs
      obtain ⟨w', hw', hws⟩ := braceCtx_split (u' ++ [w]) c v h2
      have hlast : (c :: (u' ++ [w])).getLast? = some w := by
        have hcu : c :: (u' ++ [w]) = ((c :: u') ++ [w] : List Char) := by simp
        rw [hcu]
        exact List.getLast?_concat _
      rw [hlast] at hw'
      injection hw' with hww
      rw [hww]
      exact hws

/-- In a list of the form `u0 ++ [w, c]` where `c` appears neither in `u0`
nor as `w`, the only occurrence of `c` is the final one. -/
theorem brace_only_last (c : Char) :
    ∀ (u0 : List Char) (w : Char) (x z : List Char), w ≠ c → c ∉ u0 →
      u0 ++ [w, c] = x ++ c :: z → z = []
  | u0, w, [], z, hw, hu, h => by
      cases u0 with
      | nil =>
          simp only [List.nil_append, List.cons.injEq] at h
          exact absurd h.1 hw
      | cons d u0' =>
          simp only [List.cons_append, List.nil_append, List.cons.injEq] at h
          exact absurd (by rw [← h.1]; exact List.mem_cons_self d u0') hu
  | u0, w, d :: x', z, hw, hu, h => by
      cases u0 with
      | nil =>
          simp only [List.nil_append, List.cons_append, List.cons.injEq] at h
          obtain ⟨-, h2⟩ := h
          have hlen := congrArg List.length h2
          simp at hlen
          exact List.length_eq_zero.mp (by omega)
      | cons e u0' =>
          simp only [List.cons_append, List.nil_append, List.cons.injEq] at h
          exact brace_only_last c u0' w x' z hw
            (fun hm => hu (List.mem_cons_of_mem e hm)) h.2

theorem take_eq_of_prefix (x s : List Char) (h : x <+: s) (k : Nat)
    (hk : k ≤ x.length) : s.take k = x.take k := by
  obtain ⟨t, ht⟩ := h
  rw [← ht, List.take_append_eq_append_take, Nat.sub_eq_zero_of_le hk,
    List.take_zero, List.append_nil]

theorem prefix_take_of_prefix (x s : List Char) (h : x <+: s) (k : Nat)
    (hk : x.length ≤ k) : x <+: s.take k := by
  obtain ⟨t, ht⟩ := h
  rw [← ht, List.take_append_eq_append_take, List.take_of_length_le hk]
  exact List.prefix_append x _

/-- Shape of the span consumed by the rule-1 regex: it starts with the fixed
header literal, ends in a whitespace character followed by the closing
brace, and contains no other closing brace. -/
theorem rule1_segs_shape (segs : List (List Char))
    (hF : List.Forall₂ TokM rule1Toks segs) :
    ∃ u w, segs.join = u ++ [w, '\x7d'] ∧ isPyWS w = true ∧ '\x7d' ∉ u ∧
      rule1Head <+: segs.join := by
  rw [rule1Toks] at hF
  obtain ⟨s1, u1, h1, hFa, rfl⟩ := List.forall₂_cons_left_iff.mp hF
  obtain ⟨s2, u2, h2, hFb, rfl⟩ := List.forall₂_cons_left_iff.mp hFa
  obtain ⟨s3, u3, h3, hFc, rfl⟩ := List.forall₂_cons_left_iff.mp hFb
  obtain ⟨s4, u4, h4, hFd, rfl⟩ := List.forall₂_cons_left_iff.mp hFc
  obtain ⟨s5, u5, h5, hFe, rfl⟩ := List.forall₂_cons_left_iff.mp hFd
  obtain ⟨s6, u6, h6, hFf, rfl⟩ := List.forall₂_cons_left_iff.mp hFe
  obtain ⟨s7, u7, h7, hFg, rfl⟩ := List.forall₂_cons_left_iff.mp hFf
  obtain ⟨s8, u8, h8, hFh, rfl⟩ := List.forall₂_cons_left_iff.mp hFg
  obtain rfl := List.forall₂_nil_left_iff.mp hFh
  simp only [TokM] at h1 h2 h3 h4 h5 h6 h7 h8
  subst h1 h3 h5 h6 h8
  obtain ⟨h7ne, h7ws⟩ := h7
  have hs7 : s7 = s7.dropLast ++ [s7.getLast h7ne] :=
    (List.dropLast_append_getLast h7ne).symm
  refine ⟨rule1Head ++ s2 ++ lchars "\n" ++ s4 ++ lchars "console.log(msg)" ++
    lchars "\n" ++ s7.dropLast, s7.getLast h7ne, ?_, ?_, ?_, ?_⟩
  · conv_lhs => rw [hs7]
    have hbrc : lchars "\x7d" = ['\x7d'] := rfl
    simp [hbrc, List.append_assoc]
  · exact h7ws _ (List.getLast_mem h7ne)
  · intro hmem
    simp only [List.append_assoc, List.mem_append] at hmem
    rcases hmem with hx | hx | hx | hx | hx | hx | hx
    · exact absurd hx (by decide)
    · have := h2.2 _ hx
      simp at this
    · exact absurd hx (by decide)
    · exact absurd (h4.2 _ hx) (by decide)
    · exact absurd hx (by decide)
    · exact absurd hx (by decide)
    · exact absurd (h7ws _ ((List.dropLast_prefix s7).subset hx)) (by decide)
  · exact ⟨s2 ++ lchars "\n" ++ s4 ++ lchars "console.log(msg)" ++ lchars "\n" ++
      s7 ++ lchars "\x7d", by simp⟩

/-- Replacing every `a` by `a ++ ins` cannot create a rule-1 regex match if
there was none: the inserted texts of rules 2–5 cannot complete, contain or
overlap such a match. -/
theorem rule1_not_created (a ins s : List Char) (ha : a ≠ [])
    (h2 : ¬ rule1Head <:+: ins)
    (h3 : ∀ k, k < rule1Head.length → 0 < k → ¬ (rule1Head.take k <:+ ins))
    (hbr : bracePrecededOK ins = true)
    (hmem : '\x7d' ∈ ins)
    (hlast : ins.getLast? = some ')')
    (h : findSplit rule1Toks s = none) :
    findSplit rule1Toks (replaceAll a (a ++ ins) s) = none := by
  cases hfs : findSplit rule1Toks (replaceAll a (a ++ ins) s) with
  | none => rfl
  | some pmr =>
      exfalso
      obtain ⟨p, m, r⟩ := pmr
      have hsplit := findSplit_eq rule1Toks _ p m r hfs
      have hms := findSplit_some_match rule1Toks _ p m r hfs
      obtain ⟨segs, hF, hjoin⟩ := matchSeq_segs rule1Toks (m ++ r) r hms
      have hm : segs.join = m := List.append_cancel_right hjoin.symm
      obtain ⟨u, w, hshape, hws, hu, hpre⟩ := rule1_segs_shape segs hF
      rw [hm] at hshape hpre
      obtain ⟨qs, -, hq, hrepl⟩ := replaceAll_chunks a (a ++ ins) ha s
      have hocc : m <:+: joinSep (a ++ ins) qs := by
        rw [← hrepl]
        exact ⟨p, r, hsplit.symm⟩
      rcases infix_joinSep_cases m a ins qs hocc with
        hD1 | hD2 | ⟨k, hk0, hkm, hD3⟩ | ⟨k, hk0, hkm, hD4⟩ | ⟨x, y, hD5⟩
      · rw [← hq] at hD1
        obtain ⟨x, y, hxy⟩ := hD1
        have hnone := findSplit_none_all rule1Toks x s (m ++ y) h
          (by rw [← hxy, List.append_assoc])
        have hcompl := matchSeq_complete rule1Toks segs y hF
        rw [hm] at hcompl
        exact hcompl hnone
      · exact h2 (hpre.isInfix.trans hD2)
      · by_cases hk : k ≤ rule1Head.length
        · have hkt := take_eq_of_prefix rule1Head m hpre k hk
          rw [hkt] at hD3
          rcases Nat.lt_or_ge k rule1Head.length with hlt | hge
          · exact h3 k hlt hk0 hD3
          · have hke : k = rule1Head.length := Nat.le_antisymm hk hge
            rw [hke, List.take_length] at hD3
            exact h2 hD3.isInfix
        · push_neg at hk
          have hp2 : rule1Head <+: m.take k :=
            prefix_take_of_prefix rule1Head m hpre k (Nat.le_of_lt hk)
          obtain ⟨t, ht⟩ := hD3
          obtain ⟨t2, ht2⟩ := hp2
          exact h2 ⟨t, t2, by rw [List.append_assoc, ht2, ht]⟩
      · have hml : m.length = u.length + 2 := by rw [hshape]; simp
        rcases Nat.lt_or_ge k (u.length + 1) with hku | hku
        · have hkd : m.drop k = u.drop k ++ [w, '\x7d'] := by
            rw [hshape, List.drop_append_eq_append_drop,
              Nat.sub_eq_zero_of_le (by omega), List.drop_zero]
          obtain ⟨t, ht⟩ := hD4
          rw [hkd] at ht
          have hins : ins = (u.drop k ++ [w]) ++ '\x7d' :: t := by
            rw [← ht]
            simp
          exact absurd (bracePreceded_split ins hbr (u.drop k) t w hins)
            (by simp [hws])
        · have hke : k = u.length + 1 := by omega
          have hkd : m.drop k = ['\x7d'] := by
            rw [hshape, hke, List.drop_append_eq_append_drop,
              List.drop_eq_nil_of_le (by omega)]
            have hone : u.length + 1 - u.length = 1 := by omega
            rw [hone]
            rfl
          obtain ⟨t, ht⟩ := hD4
          rw [hkd] at ht
          rw [← ht] at hbr
          simp only [List.cons_append, List.nil_append] at hbr
          rw [bracePrecededOK] at hbr
          simp at hbr
      · obtain ⟨i1, i2, hi⟩ := List.append_of_mem hmem
        have hi2 : i2 ≠ [] := by
          intro he
          rw [he] at hi
          rw [hi] at hlast
          simp at hlast
        have hm2 : u ++ [w, '\x7d'] = (x ++ i1) ++ '\x7d' :: (i2 ++ y) := by
          rw [← hshape, hD5, hi]
          simp [List.append_assoc]
        have hwne : w ≠ '\x7d' := by
          intro he
          rw [he] at hws
          exact absurd hws (by decide)
        have hz := brace_only_last '\x7d' u w (x ++ i1) (i2 ++ y) hwne hu hm2
        rw [List.append_eq_nil] at hz
        exact hi2 hz.1


/-! ### Per-rule preservation lemmas (towards patcher idempotence) -/

/-- Rule 2 preserves every occurrence of a string without `')'`. -/
theorem infix_patchRule2 (m : List Char) (hm : (')' : Char) ∉ m) (s : List Char)
    (h : m <:+: s) : m <:+: patchRule2 s := by
  rw [patchRule2]
  split
  · exact h
  · exact infix_replaceAll_mono m anchor2 ins2 s ')' (by decide) hm h

/-- Rule 3 preserves every occurrence of a string without `')'`. -/
theorem infix_patchRule3 (m : List Char) (hm : (')' : Char) ∉ m) (s : List Char)
    (h : m <:+: s) : m <:+: patchRule3 s := by
  rw [patchRule3]
  split
  · exact h
  · exact infix_replaceAll_mono m anchor3 ins3 s ')' (by decide) hm h

/-- Rule 4 preserves every occurrence of a string without `')'`. -/
theorem infix_patchRule4 (m : List Char) (hm : (')' : Char) ∉ m) (s : List Char)
    (h : m <:+: s) : m <:+: patchRule4 s := by
  rw [patchRule4]
  split
  · exact h
  · exact infix_replaceAll_mono m anchor4 ins4 s ')' (by decide) hm h

/-- Rule 5 preserves every occurrence of a string without `')'`. -/
theorem infix_patchRule5 (m : List Char) (hm : (')' : Char) ∉ m) (s : List Char)
    (h : m <:+: s) : m <:+: patchRule5 s := by
  rw [patchRule5]
  split
  · exact h
  · exact infix_replaceAll_mono m anchor5 ins5 s ')' (by decide) hm h

/-- Rule 2 cannot create a rule-1 regex match. -/
theorem noR1_patchRule2 (s : List Char) (h : findSplit rule1Toks s = none) :
    findSplit rule1Toks (patchRule2 s) = none := by
  rw [patchRule2]
  split
  · exact h
  · exact rule1_not_created anchor2 ins2 s (by decide) (by decide) (by decide)
      (by decide) (by decide) (by decide) h

/-- Rule 3 cannot create a rule-1 regex match. -/
theorem noR1_patchRule3 (s : List Char) (h : findSplit rule1Toks s = none) :
    findSplit rule1Toks (patchRule3 s) = none := by
  rw [patchRule3]
  split
  · exact h
  · exact rule1_not_created anchor3 ins3 s (by decide) (by decide) (by decide)
      (by decide) (by decide) (by decide) h

/-- Rule 4 cannot create a rule-1 regex match. -/
theorem noR1_patchRule4 (s : List Char) (h : findSplit rule1Toks s = none) :
    findSplit rule1Toks (patchRule4 s) = none := by
  rw [patchRule4]
  split
  · exact h
  · exact rule1_not_created anchor4 ins4 s (by decide) (by decide) (by decide)
      (by decide) (by decide) (by decide) h

/-- Rule 5 cannot create a rule-1 regex match. -/
theorem noR1_patchRule5 (s : List Char) (h : findSplit rule1Toks s = none) :
    findSplit rule1Toks (patchRule5 s) = none := by
  rw [patchRule5]
  split
  · exact h
  · exact rule1_not_created anchor5 ins5 s (by decide) (by decide) (by decide)
      (by decide) (by decide) (by decide) h

/-- Rule 3 cannot create an occurrence of rule 2's anchor. -/
theorem noAnchor2_patchRule3 (s : List Char) (h : ¬ anchor2 <:+: s) :
    ¬ anchor2 <:+: patchRule3 s := by
  rw [patchRule3]
  split
  · exact h
  · exact not_infix_replaceAll anchor2 anchor3 ins3 s (by decide) (by decide)
      (by decide) (by decide) (by decide) h

/-- Rule 4 cannot create an occurrence of rule 2's anchor. -/
theorem noAnchor2_patchRule4 (s : List Char) (h : ¬ anchor2 <:+: s) :
    ¬ anchor2 <:+: patchRule4 s := by
  rw [patchRule4]
  split
  · exact h
  · exact not_infix_replaceAll anchor2 anchor4 ins4 s (by decide) (by decide)
      (by decide) (by decide) (by decide) h

/-- Rule 5 cannot create an occurrence of rule 2's anchor. -/
theorem noAnchor2_patchRule5 (s : List Char) (h : ¬ anchor2 <:+: s) :
    ¬ anchor2 <:+: patchRule5 s := by
  rw [patchRule5]
  split
  · exact h
  · exact not_infix_replaceAll anchor2 anchor5 ins5 s (by decide) (by decide)
      (by decide) (by decide) (by decide) h

/-- Rule 4 cannot create an occurrence of rule 3's anchor. -/
theorem noAnchor3_patchRule4 (s : List Char) (h : ¬ anchor3 <:+: s) :
    ¬ anchor3 <:+: patchRule4 s := by
  rw [patchRule4]
  split
  · exact h
  · exact not_infix_replaceAll anchor3 anchor4 ins4 s (by decide) (by decide)
      (by decide) (by decide) (by decide) h

/-- Rule 5 cannot create an occurrence of rule 3's anchor. -/
theorem noAnchor3_patchRule5 (s : List Char) (h : ¬ anchor3 <:+: s) :
    ¬ anchor3 <:+: patchRule5 s := by
  rw [patchRule5]
  split
  · exact h
  · exact not_infix_replaceAll anchor3 anchor5 ins5 s (by decide) (by decide)
      (by decide) (by decide) (by decide) h

/-- Rule 5 cannot create an occurrence of rule 4's anchor. -/
theorem noAnchor4_patchRule5 (s : List Char) (h : ¬ anchor4 <:+: s) :
    ¬ anchor4 <:+: patchRule5 s := by
  rw [patchRule5]
  split
  · exact h
  · exact not_infix_replaceAll anchor4 anchor5 ins5 s (by decide) (by decide)
      (by decide) (by decide) (by decide) h

/-- When the rule-1 regex matches, the substitution makes the mount marker
appear (it is part of `mount_log`). -/
theorem marker1_subAll (s : List Char) (hf : findSplit rule1Toks s ≠ none) :
    marker1 <:+: subAll rule1Toks (fun m => m ++ mount_log) s := by
  cases hfs : findSplit rule1Toks s with
  | none => exact absurd hfs hf
  | some pmr =>
      obtain ⟨p, m, r⟩ := pmr
      have hms := findSplit_some_match rule1Toks s p m r hfs
      obtain ⟨segs, hF, hjoin⟩ := matchSeq_segs rule1Toks (m ++ r) r hms
      have hmm : segs.join = m := List.append_cancel_right hjoin.symm
      obtain ⟨u, w, hshape, -, -, -⟩ := rule1_segs_shape segs hF
      rw [hmm] at hshape
      have hmne : m ≠ [] := by rw [hshape]; simp
      rw [subAll_eq_pos rule1Toks _ s p m r hfs hmne]
      have h1 : marker1 <:+: mount_log := by decide
      have h2 : mount_log <:+:
          p ++ (m ++ mount_log) ++ subAll rule1Toks (fun x => x ++ mount_log) r :=
        ⟨p ++ m, subAll rule1Toks (fun x => x ++ mount_log) r, by
          simp [List.append_assoc]⟩
      exact h1.trans h2

/-! ### Concrete inputs and expected outputs used by the claims -/

/-- A canonical unpatched text containing all five anchors (the
`addDebugLog` definition shape of rule 1 and the four literal anchors). -/
def Tcanon : List Char :=
  lchars "const addDebugLog = (msg: string) => \x7b\n    logs.push(msg)\n    console.log(msg)\n  \x7d\n  const onTap = () => \x7b\n    addDebugLog(\x60✅ Valid tap, gap=$\x7btimeSinceLastTap\x7dms\x60)\n    addDebugLog(\x27🎉 DOUBLE TAP SUCCESS!\x27)\n    addDebugLog(\x27📝 First tap recorded\x27)\n    addDebugLog(\x27⏱️ Timeout - reset\x27)\n  \x7d\n"

/-- What `unpatch (patch Tcanon)` actually produces: the four anchor lines
of `Tcanon` are gone as well, and the lifecycle block's comment, `useEffect`
header, `return`-callback line and closer remain. -/
def TcanonRT : List Char :=
  lchars "const addDebugLog = (msg: string) => \x7b\n    logs.push(msg)\n    console.log(msg)\n  \x7d\n    // マウント確認用\n    useEffect(() => \x7b\n        return () => addDebugLog(\x27💀 PDFPane Unmounted\x27)\n    \x7d, [])\n\n  const onTap = () => \x7b\n  \x7d\n"

/-- A minimal text matched by rule 1's regex (and no other anchor). -/
def Tmount : List Char :=
  lchars "const addDebugLog = (msg: string) => \x7bx\n    console.log(msg)\n  \x7d\n"

/-- What `unpatch (patch Tmount)` actually produces: the mount line is
removed but the rest of the inserted lifecycle block survives. -/
def TmountRT : List Char :=
  lchars "const addDebugLog = (msg: string) => \x7bx\n    console.log(msg)\n  \x7d\n    // マウント確認用\n    useEffect(() => \x7b\n        return () => addDebugLog(\x27💀 PDFPane Unmounted\x27)\n    \x7d, [])\n\n"

/-- A text with no injected statement but containing `debugLogs.length`. -/
def TnoInj : List Char := lchars "const n = debugLogs.length\nkeep\n"

/-- A text on which the display-block removal splices the surrounding text
into a new injected-statement line. -/
def Tsplice : List Char :=
  lchars "addDebug\x7b/* Debug Log Display (iPad用) */\x7dabc\x7bdebugLogs.map((log, i) => (x\n))\x7d</div>)\x7d\nLog(\x27hi\x27)\nmore\n"

/-- A text containing rule 3's anchor twice. -/
def Tdouble : List Char := anchor3 ++ lchars " x " ++ anchor3

/-- What the patcher would produce if it inserted only at the first
occurrence of the anchor. -/
def TdoubleFirstOnly : List Char := anchor3 ++ ins3 ++ lchars " x " ++ anchor3

/-- What the patcher actually produces on `Tdouble`: an insertion after
both occurrences. -/
def TdoubleBoth : List Char := anchor3 ++ ins3 ++ lchars " x " ++ anchor3 ++ ins3

/-- Lines before the marker line in the brace-scan examples. -/
def scanPre : List (List Char) := [lchars "const a = 1;"]

/-- A block-start marker line (its own braces are ignored by the scan). -/
def scanMarkerLine : List Char := lchars "  \x7bdebugLogs.length > 0 && ("

/-- A three-level nested block whose cumulative count first returns to the
baseline at its last line. -/
def scanBlock : List (List Char) :=
  [lchars "    \x7b", lchars "      \x7b", lchars "        deep",
   lchars "      \x7d", lchars "    \x7d", lchars "  )\x7d"]

/-- Lines following the block. -/
def scanPost : List (List Char) := [lchars "keep me"]

/-- Lines before the marker line in the unclosed-block example. -/
def scanPre9 : List (List Char) := [lchars "before"]

/-- Marker line for the unclosed-block example. -/
def scanMarkerLine9 : List Char := lchars "// Debug Log Display"

/-- A block that opens more braces than it closes. -/
def scanBlock9 : List (List Char) :=
  [lchars "  \x7b", lchars "    body", lchars "  \x7d\x7b"]

/-! ### The claims -/

/-- C1: Patcher idempotence.  Applying the patcher's pure text
transformation (the five guarded insertion rules of `add_debug_logs_v2.py`)
twice yields the same text as applying it once: after one run, every rule
either left its detection marker in the text (so the guard skips it) or
changed nothing and cannot find an anchor the other rules could have
created, so the second run is the identity. -/
theorem patch_idempotent (content : List Char) :
    patch (patch content) = patch content := by
  have hA1 : isSubstr marker1 (patch content) = true ∨
      findSplit rule1Toks (patch content) = none := by
    by_cases hm1 : isSubstr marker1 content = true
    · left
      have h0 : marker1 <:+: patchRule1 content := by
        rw [patchRule1, if_pos hm1]
        exact (isSubstr_iff_occurs _ _).mp hm1
      have hp : marker1 <:+: patch content := by
        rw [patch]
        exact infix_patchRule5 marker1 (by decide) _
          (infix_patchRule4 marker1 (by decide) _
            (infix_patchRule3 marker1 (by decide) _
              (infix_patchRule2 marker1 (by decide) _ h0)))
      exact (isSubstr_iff_occurs _ _).mpr hp
    · cases hf1 : findSplit rule1Toks content with
      | some pmr =>
          left
          have h0 : marker1 <:+: patchRule1 content := by
            rw [patchRule1, if_neg hm1]
            exact marker1_subAll content (by rw [hf1]; simp)
          have hp : marker1 <:+: patch content := by
            rw [patch]
            exact infix_patchRule5 marker1 (by decide) _
              (infix_patchRule4 marker1 (by decide) _
                (infix_patchRule3 marker1 (by decide) _
                  (infix_patchRule2 marker1 (by decide) _ h0)))
          exact (isSubstr_iff_occurs _ _).mpr hp
      | none =>
          right
          have h0 : findSplit rule1Toks (patchRule1 content) = none := by
            rw [patchRule1]
            split
            · exact hf1
            · rw [subAll_id_of_none _ _ _ hf1]
              exact hf1
          rw [patch]
          exact noR1_patchRule5 _ (noR1_patchRule4 _ (noR1_patchRule3 _
            (noR1_patchRule2 _ h0)))
  have hA2 : isSubstr marker2 (patch content) = true ∨
      ¬ anchor2 <:+: patch content := by
    by_cases hm2 : isSubstr marker2 (patchRule1 content) = true
    · left
      have h0 : marker2 <:+: patchRule2 (patchRule1 content) := by
        rw [patchRule2, if_pos hm2]
        exact (isSubstr_iff_occurs _ _).mp hm2
      have hp : marker2 <:+: patch content := by
        rw [patch]
        exact infix_patchRule5 marker2 (by decide) _
          (infix_patchRule4 marker2 (by decide) _
            (infix_patchRule3 marker2 (by decide) _ h0))
      exact (isSubstr_iff_occurs _ _).mpr hp
    · by_cases ha2 : anchor2 <:+: patchRule1 content
      · left
        have h0 : marker2 <:+: patchRule2 (patchRule1 content) := by
          rw [patchRule2, if_neg hm2]
          have hb := infix_replaceAll_of_infix anchor2 (anchor2 ++ ins2)
            (patchRule1 content) (by decide) ha2
          have hmi : marker2 <:+: anchor2 ++ ins2 := by decide
          exact hmi.trans hb
        have hp : marker2 <:+: patch content := by
          rw [patch]
          exact infix_patchRule5 marker2 (by decide) _
            (infix_patchRule4 marker2 (by decide) _
              (infix_patchRule3 marker2 (by decide) _ h0))
        exact (isSubstr_iff_occurs _ _).mpr hp
      · right
        have h0 : ¬ anchor2 <:+: patchRule2 (patchRule1 content) := by
          rw [patchRule2, if_neg hm2]
          rw [replaceAll_id_of_no_occurrence _ _ _ ha2]
          exact ha2
        rw [patch]
        exact noAnchor2_patchRule5 _ (noAnchor2_patchRule4 _
          (noAnchor2_patchRule3 _ h0))
  have hA3 : isSubstr marker3 (patch content) = true ∨
      ¬ anchor3 <:+: patch content := by
    by_cases hm3 : isSubstr marker3 (patchRule2 (patchRule1 content)) = true
    · left
      have h0 : marker3 <:+: patchRule3 (patchRule2 (patchRule1 content)) := by
        rw [patchRule3, if_pos hm3]
        exact (isSubstr_iff_occurs _ _).mp hm3
      have hp : marker3 <:+: patch content := by
        rw [patch]
        exact infix_patchRule5 marker3 (by decide) _
          (infix_patchRule4 marker3 (by decide) _ h0)
      exact (isSubstr_iff_occurs _ _).mpr hp
    · by_cases ha3 : anchor3 <:+: patchRule2 (patchRule1 content)
      · left
        have h0 : marker3 <:+: patchRule3 (patchRule2 (patchRule1 content)) := by
          rw [patchRule3, if_neg hm3]
          have hb := infix_replaceAll_of_infix anchor3 (anchor3 ++ ins3)
            (patchRule2 (patchRule1 content)) (by decide) ha3
          have hmi : marker3 <:+: anchor3 ++ ins3 := by decide
          exact hmi.trans hb
        have hp : marker3 <:+: patch content := by
          rw [patch]
          exact infix_patchRule5 marker3 (by decide) _
            (infix_patchRule4 marker3 (by decide) _ h0)
        exact (isSubstr_iff_occurs _ _).mpr hp
      · right
        have h0 : ¬ anchor3 <:+: patchRule3 (patchRule2 (patchRule1 content)) := by
          rw [patchRule3, if_neg hm3]
          rw [replaceAll_id_of_no_occurrence _ _ _ ha3]
          exact ha3
        rw [patch]
        exact noAnchor3_patchRule5 _ (noAnchor3_patchRule4 _ h0)
  have hA4 : isSubstr marker4 (patch content) = true ∨
      ¬ anchor4 <:+: patch content := by
    by_cases hm4 : isSubstr marker4
      (patchRule3 (patchRule2 (patchRule1 content))) = true
    · left
      have h0 : marker4 <:+:
          patchRule4 (patchRule3 (patchRule2 (patchRule1 content))) := by
        rw [patchRule4, if_pos hm4]
        exact (isSubstr_iff_occurs _ _).mp hm4
      have hp : marker4 <:+: patch content := by
        rw [patch]
        exact infix_patchRule5 marker4 (by decide) _ h0
      exact (isSubstr_iff_occurs _ _).mpr hp
    · by_cases ha4 : anchor4 <:+: patchRule3 (patchRule2 (patchRule1 content))
      · left
        have h0 : marker4 <:+:
            patchRule4 (patchRule3 (patchRule2 (patchRule1 content))) := by
          rw [patchRule4, if_neg hm4]
          have hb := infix_replaceAll_of_infix anchor4 (anchor4 ++ ins4)
            (patchRule3 (patchRule2 (patchRule1 content))) (by decide) ha4
          have hmi : marker4 <:+: anchor4 ++ ins4 := by decide
          exact hmi.trans hb
        have hp : marker4 <:+: patch content := by
          rw [patch]
          exact infix_patchRule5 marker4 (by decide) _ h0
        exact (isSubstr_iff_occurs _ _).mpr hp
      · right
        have h0 : ¬ anchor4 <:+:
            patchRule4 (patchRule3 (patchRule2 (patchRule1 content))) := by
          rw [patchRule4, if_neg hm4]
          rw [replaceAll_id_of_no_occurrence _ _ _ ha4]
          exact ha4
        rw [patch]
        exact noAnchor4_patchRule5 _ h0
  have hA5 : isSubstr marker5 (patch content) = true ∨
      ¬ anchor5 <:+: patch content := by
    by_cases hm5 : isSubstr marker5
      (patchRule4 (patchRule3 (patchRule2 (patchRule1 content)))) = true
    · left
      have h0 : marker5 <:+:
          patchRule5 (patchRule4 (patchRule3 (patchRule2 (patchRule1 content)))) := by
        rw [patchRule5, if_pos hm5]
        exact (isSubstr_iff_occurs _ _).mp hm5
      rw [patch]
      exact (isSubstr_iff_occurs _ _).mpr h0
    · by_cases ha5 : anchor5 <:+:
        patchRule4 (patchRule3 (patchRule2 (patchRule1 content)))
      · left
        have h0 : marker5 <:+:
            patchRule5 (patchRule4 (patchRule3 (patchRule2 (patchRule1 content)))) := by
          rw [patchRule5, if_neg hm5]
          have hb := infix_replaceAll_of_infix anchor5 (anchor5 ++ ins5)
            (patchRule4 (patchRule3 (patchRule2 (patchRule1 content)))) (by decide) ha5
          have hmi : marker5 <:+: anchor5 ++ ins5 := by decide
          exact hmi.trans hb
        rw [patch]
        exact (isSubstr_iff_occurs _ _).mpr h0
      · right
        have h0 : ¬ anchor5 <:+:
            patchRule5 (patchRule4 (patchRule3 (patchRule2 (patchRule1 content)))) := by
          rw [patchRule5, if_neg hm5]
          rw [replaceAll_id_of_no_occurrence _ _ _ ha5]
          exact ha5
        rw [patch]
        exact h0
  have e1 : patchRule1 (patch content) = patch content := by
    rcases hA1 with hm | hn
    · rw [patchRule1, if_pos hm]
    · rw [patchRule1]
      split
      · rfl
      · exact subAll_id_of_none _ _ _ hn
  have e2 : patchRule2 (patch content) = patch content := by
    rcases hA2 with hm | hn
    · rw [patchRule2, if_pos hm]
    · rw [patchRule2]
      split
      · rfl
      · exact replaceAll_id_of_no_occurrence _ _ _ hn
  have e3 : patchRule3 (patch content) = patch content := by
    rcases hA3 with hm | hn
    · rw [patchRule3, if_pos hm]
    · rw [patchRule3]
      split
      · rfl
      · exact replaceAll_id_of_no_occurrence _ _ _ hn
  have e4 : patchRule4 (patch content) = patch content := by
    rcases hA4 with hm | hn
    · rw [patchRule4, if_pos hm]
    · rw [patchRule4]
      split
      · rfl
      · exact replaceAll_id_of_no_occurrence _ _ _ hn
  have e5 : patchRule5 (patch content) = patch content := by
    rcases hA5 with hm | hn
    · rw [patchRule5, if_pos hm]
    · rw [patchRule5]
      split
      · rfl
      · exact replaceAll_id_of_no_occurrence _ _ _ hn
  show patchRule5 (patchRule4 (patchRule3 (patchRule2
    (patchRule1 (patch content))))) = patch content
  rw [e1, e2, e3, e4, e5]

/-- C2 (counterexample): on the canonical text `Tcanon`, in which every
rule's anchor is found and all inserted blocks are brace-balanced, the
unpatcher applied to the patcher's output does not restore the input. -/
theorem round_trip_fails_on_canonical_input :
    ruleAnchorFound 0 Tcanon = true ∧ ruleAnchorFound 1 Tcanon = true ∧
    ruleAnchorFound 2 Tcanon = true ∧ ruleAnchorFound 3 Tcanon = true ∧
    ruleAnchorFound 4 Tcanon = true ∧
    braceDelta mount_log = 0 ∧ braceDelta ins2 = 0 ∧ braceDelta ins3 = 0 ∧
    braceDelta ins4 = 0 ∧ braceDelta ins5 = 0 ∧
    unpatch (patch Tcanon) ≠ Tcanon := by
  rw [← patchE_eq Tcanon, ← unpatchE_eq (patchE Tcanon)]
  decide

/-- C2 (amended): on the canonical text the round trip instead yields
`TcanonRT`: the unpatcher also deletes the pre-existing bare `addDebugLog`
anchor lines of the input, and leaves behind the non-`addDebugLog`-line
parts of the inserted lifecycle block (comment, `useEffect` header,
`return`-callback, closer). -/
theorem round_trip_leftover_on_canonical_input :
    unpatch (patch Tcanon) = TcanonRT ∧ TcanonRT ≠ Tcanon := by
  rw [← patchE_eq Tcanon, ← unpatchE_eq (patchE Tcanon)]
  decide

/-- C3 (counterexample): on `Tmount` the patcher inserts the lifecycle
block (the input contains no `addDebugLog(` call of its own), and after
`unpatch (patch Tmount)` the inserted unmount call
`addDebugLog('💀 PDFPane Unmounted')` is still present — a
patcher-inserted call that the unpatcher does not remove. -/
theorem unmount_call_survives_unpatch :
    isSubstr (lchars "addDebugLog(") Tmount = false ∧
    isSubstr (lchars "💀 PDFPane Unmounted") (unpatch (patch Tmount)) = true ∧
    isSubstr (lchars "addDebugLog(") (unpatch (patch Tmount)) = true := by
  rw [← patchE_eq Tmount, ← unpatchE_eq (patchE Tmount)]
  decide

/-- C3 (amended): the line-removal pass removes every inserted call that
stands alone on its own line — afterwards no line of the result matches the
injected-statement pattern — but the unmount call embedded in
`return () => addDebugLog('💀 PDFPane Unmounted')` survives, as the exact
result `TmountRT` shows. -/
theorem line_removal_leaves_only_return_callback :
    unpatch (patch Tmount) = TmountRT ∧
    isSubstr (lchars "return () => addDebugLog(\x27💀 PDFPane Unmounted\x27)") TmountRT = true ∧
    findSplitLSE lineToks true TmountRT = none := by
  rw [← patchE_eq Tmount, ← unpatchE_eq (patchE Tmount)]
  decide

/-- C4: the fallback brace-counting scan removes exactly the span from the
marker line through the line at which the cumulative brace count returns to
the pre-block baseline (zero or below), and leaves every line after that
point untouched. -/
theorem brace_scan_removes_exact_span (pre : List (List Char)) (mline : List Char)
    (block post : List (List Char))
    (hpre : ∀ l ∈ pre, hasBlockMarker l = false)
    (hm : hasBlockMarker mline = true)
    (hblock : ∀ l ∈ block, hasBlockMarker l = false)
    (hpost : ∀ l ∈ post, hasBlockMarker l = false)
    (hopen : ∀ j, j < block.length → 0 < 1 + ((block.take j).map braceDelta).sum)
    (hclose : 1 + (block.map braceDelta).sum ≤ 0) :
    fallbackScan 0 (pre ++ mline :: (block ++ post)) = pre ++ post := by
  rw [fallbackScan_keep (mline :: (block ++ post)) pre hpre]
  have hstep : fallbackScan 0 (mline :: (block ++ post)) = fallbackScan 1 (block ++ post) := by
    rw [fallbackScan, hm]
    simp
  rw [hstep, fallbackScan_skip post block 1 (by omega) hblock hopen hclose,
    fallbackScan_nil_of_noMarker post hpost]

/-- Witness for C4: a 3-level nested block; the scan returns exactly the
lines before the marker and after the closing line. -/
theorem brace_scan_removes_exact_span_witness :
    (∀ l ∈ scanPre, hasBlockMarker l = false) ∧
    hasBlockMarker scanMarkerLine = true ∧
    (∀ l ∈ scanBlock, hasBlockMarker l = false) ∧
    (∀ l ∈ scanPost, hasBlockMarker l = false) ∧
    (∀ j, j < scanBlock.length → 0 < 1 + ((scanBlock.take j).map braceDelta).sum) ∧
    1 + (scanBlock.map braceDelta).sum ≤ 0 ∧
    fallbackScan 0 (scanPre ++ scanMarkerLine :: (scanBlock ++ scanPost)) = scanPre ++ scanPost := by
  refine ⟨by decide, by decide, by decide, by decide, by decide, by decide, ?_⟩
  exact brace_scan_removes_exact_span scanPre scanMarkerLine scanBlock scanPost
    (by decide) (by decide) (by decide) (by decide) (by decide) (by decide)

/-- C5 (counterexample): `TnoInj` contains no injected statement (the
line-removal pattern finds no match anywhere in it), yet the unpatcher does
not return it unchanged — the `debugLogs.length` fallback deletes every
line. -/
theorem fallback_scan_false_positive :
    findSplitLSE lineToks true TnoInj = none ∧
    unpatch TnoInj = [] ∧ TnoInj ≠ [] := by
  rw [← unpatchE_eq TnoInj]
  decide

/-- C5 (amended): the unpatcher removes zero lines and returns the text
unchanged provided the injected-statement pattern has no match, the display
pattern has no match, and the fallback guard string `debugLogs.length` does
not occur; ordinary calls with a different name are never matched by the
removal pattern. -/
theorem unpatch_no_false_positives (T : List Char)
    (h1 : findSplitLSE lineToks true T = none)
    (h2 : findSplitE displayToks T = none)
    (h3 : isSubstr (lchars "debugLogs.length") T = false) :
    unpatch T = T := by
  rw [findSplitLSE_eq] at h1
  rw [findSplitE_eq] at h2
  exact unpatch_id_of_nomatch T h1 h2 h3

/-- Witness for C5's amended claim: a text with an ordinary call of a
different name is returned unchanged. -/
theorem unpatch_no_false_positives_witness :
    findSplitLSE lineToks true (lchars "const x = myLog(y)\n") = none ∧
    findSplitE displayToks (lchars "const x = myLog(y)\n") = none ∧
    isSubstr (lchars "debugLogs.length") (lchars "const x = myLog(y)\n") = false ∧
    unpatch (lchars "const x = myLog(y)\n") = lchars "const x = myLog(y)\n" :=
  ⟨by decide, by decide, by decide,
    unpatch_no_false_positives (lchars "const x = myLog(y)\n")
      (by decide) (by decide) (by decide)⟩

/-- C6: if rule `i`'s detection marker is absent and its anchor is not
found, the rule leaves the text unchanged (and, all rule functions being
total, no error is raised). -/
theorem rule_silent_skip (i : Fin 5) (content : List Char)
    (hm : isSubstr (ruleMarker i) content = false)
    (ha : ruleAnchorFound i content = false) :
    ruleApply i content = content := by
  match i with
  | ⟨0, _⟩ =>
      have hm' : isSubstr marker1 content = false := hm
      have ha' : (findSplitE rule1Toks content).isSome = false := ha
      show patchRule1 content = content
      rw [patchRule1, if_neg (by simp [hm'])]
      cases hfs : findSplit rule1Toks content with
      | none => exact subAll_id_of_none _ _ _ hfs
      | some v =>
          rw [findSplitE_eq, hfs] at ha'
          simp at ha'
  | ⟨1, _⟩ =>
      have hm' : isSubstr marker2 content = false := hm
      have ha' : isSubstr anchor2 content = false := ha
      show patchRule2 content = content
      rw [patchRule2, if_neg (by simp [hm'])]
      refine replaceAll_id_of_no_occurrence _ _ _ ?_
      intro hinf
      rw [(isSubstr_iff_occurs _ _).mpr hinf] at ha'
      simp at ha'
  | ⟨2, _⟩ =>
      have hm' : isSubstr marker3 content = false := hm
      have ha' : isSubstr anchor3 content = false := ha
      show patchRule3 content = content
      rw [patchRule3, if_neg (by simp [hm'])]
      refine replaceAll_id_of_no_occurrence _ _ _ ?_
      intro hinf
      rw [(isSubstr_iff_occurs _ _).mpr hinf] at ha'
      simp at ha'
  | ⟨3, _⟩ =>
      have hm' : isSubstr marker4 content = false := hm
      have ha' : isSubstr anchor4 content = false := ha
      show patchRule4 content = content
      rw [patchRule4, if_neg (by simp [hm'])]
      refine replaceAll_id_of_no_occurrence _ _ _ ?_
      intro hinf
      rw [(isSubstr_iff_occurs _ _).mpr hinf] at ha'
      simp at ha'
  | ⟨4, _⟩ =>
      have hm' : isSubstr marker5 content = false := hm
      have ha' : isSubstr anchor5 content = false := ha
      show patchRule5 content = content
      rw [patchRule5, if_neg (by simp [hm'])]
      refine replaceAll_id_of_no_occurrence _ _ _ ?_
      intro hinf
      rw [(isSubstr_iff_occurs _ _).mpr hinf] at ha'
      simp at ha'
  | ⟨n + 5, h⟩ => exact absurd h (by omega)

/-- Witness for C6 at rule 2 on a text lacking both marker and anchor. -/
theorem rule_silent_skip_witness :
    isSubstr (ruleMarker 1) (lchars "hello\n") = false ∧
    ruleAnchorFound 1 (lchars "hello\n") = false ∧
    ruleApply 1 (lchars "hello\n") = lchars "hello\n" :=
  ⟨by decide, by decide,
    rule_silent_skip 1 (lchars "hello\n") (by decide) (by decide)⟩

/-- C7 (counterexample): on `Tdouble`, whose anchor occurs twice, the
patcher does not insert only at the first occurrence: it inserts after both
occurrences. -/
theorem patch_not_first_occurrence_only :
    isSubstr marker3 Tdouble = false ∧
    patch Tdouble ≠ TdoubleFirstOnly ∧
    patch Tdouble = TdoubleBoth := by
  rw [← patchE_eq Tdouble]
  decide

/-- Anchors of the four `str.replace` rules. -/
def ruleAnchorText : Fin 4 → List Char
  | ⟨0, _⟩ => anchor2
  | ⟨1, _⟩ => anchor3
  | ⟨2, _⟩ => anchor4
  | ⟨3, _⟩ => anchor5
  | ⟨n + 4, h⟩ => absurd h (by omega)

/-- Inserted texts of the four `str.replace` rules. -/
def ruleInsText : Fin 4 → List Char
  | ⟨0, _⟩ => ins2
  | ⟨1, _⟩ => ins3
  | ⟨2, _⟩ => ins4
  | ⟨3, _⟩ => ins5
  | ⟨n + 4, h⟩ => absurd h (by omega)

/-- C7 (amended): when its marker is absent, each `str.replace` rule
inserts its text after every non-overlapping occurrence of its anchor,
scanned left to right — one insertion per occurrence, not one per run. -/
theorem replace_rules_insert_at_every_occurrence (i : Fin 4) (content : List Char)
    (hm : isSubstr (ruleMarker i.succ) content = false) :
    ∃ qs, qs ≠ [] ∧ content = joinSep (ruleAnchorText i) qs ∧
      ruleApply i.succ content = joinSep (ruleAnchorText i ++ ruleInsText i) qs := by
  match i with
  | ⟨0, _⟩ =>
      have hm' : isSubstr marker2 content = false := hm
      show ∃ qs, qs ≠ [] ∧ content = joinSep anchor2 qs ∧
        patchRule2 content = joinSep (anchor2 ++ ins2) qs
      rw [patchRule2, if_neg (by simp [hm'])]
      exact replaceAll_chunks anchor2 (anchor2 ++ ins2) (by decide) content
  | ⟨1, _⟩ =>
      have hm' : isSubstr marker3 content = false := hm
      show ∃ qs, qs ≠ [] ∧ content = joinSep anchor3 qs ∧
        patchRule3 content = joinSep (anchor3 ++ ins3) qs
      rw [patchRule3, if_neg (by simp [hm'])]
      exact replaceAll_chunks anchor3 (anchor3 ++ ins3) (by decide) content
  | ⟨2, _⟩ =>
      have hm' : isSubstr marker4 content = false := hm
      show ∃ qs, qs ≠ [] ∧ content = joinSep anchor4 qs ∧
        patchRule4 content = joinSep (anchor4 ++ ins4) qs
      rw [patchRule4, if_neg (by simp [hm'])]
      exact replaceAll_chunks anchor4 (anchor4 ++ ins4) (by decide) content
  | ⟨3, _⟩ =>
      have hm' : isSubstr marker5 content = false := hm
      show ∃ qs, qs ≠ [] ∧ content = joinSep anchor5 qs ∧
        patchRule5 content = joinSep (anchor5 ++ ins5) qs
      rw [patchRule5, if_neg (by simp [hm'])]
      exact replaceAll_chunks anchor5 (anchor5 ++ ins5) (by decide) content
  | ⟨n + 4, h⟩ => exact absurd h (by omega)

/-- Witness for C7's amended claim at rule 3 on the double-anchor input. -/
theorem replace_rules_insert_at_every_occurrence_witness :
    isSubstr (ruleMarker (1 : Fin 4).succ) Tdouble = false ∧
    (∃ qs, qs ≠ [] ∧ Tdouble = joinSep (ruleAnchorText 1) qs ∧
      ruleApply (1 : Fin 4).succ Tdouble = joinSep (ruleAnchorText 1 ++ ruleInsText 1) qs) :=
  ⟨by decide, replace_rules_insert_at_every_occurrence 1 Tdouble (by decide)⟩

/-- C8: the patcher is insertion-only — every input text is a subsequence
of its patched output; existing text is never deleted, replaced or
reordered. -/
theorem patch_insertion_only (T : List Char) : T.Sublist (patch T) :=
  ((((patchRule1_sublist T).trans (patchRule2_sublist _)).trans
    (patchRule3_sublist _)).trans (patchRule4_sublist _)).trans
    (patchRule5_sublist _)

/-- C9: if the fallback scan starts at a marker line and the running brace
counter never returns to zero or below before end of input, every line from
the marker line through the end of the file is removed. -/
theorem brace_scan_unclosed_drops_tail (pre : List (List Char)) (mline : List Char)
    (block : List (List Char))
    (hpre : ∀ l ∈ pre, hasBlockMarker l = false)
    (hm : hasBlockMarker mline = true)
    (hblock : ∀ l ∈ block, hasBlockMarker l = false)
    (hopen : ∀ j, j ≤ block.length → 0 < 1 + ((block.take j).map braceDelta).sum) :
    fallbackScan 0 (pre ++ mline :: block) = pre := by
  rw [fallbackScan_keep (mline :: block) pre hpre]
  have hstep : fallbackScan 0 (mline :: block) = fallbackScan 1 block := by
    rw [fallbackScan, hm]
    simp
  rw [hstep, fallbackScan_skip_all block 1 (by omega) hblock hopen]
  simp

/-- Witness for C9: an unclosed block is dropped to end of input. -/
theorem brace_scan_unclosed_drops_tail_witness :
    (∀ l ∈ scanPre9, hasBlockMarker l = false) ∧
    hasBlockMarker scanMarkerLine9 = true ∧
    (∀ l ∈ scanBlock9, hasBlockMarker l = false) ∧
    (∀ j, j ≤ scanBlock9.length → 0 < 1 + ((scanBlock9.take j).map braceDelta).sum) ∧
    fallbackScan 0 (scanPre9 ++ scanMarkerLine9 :: scanBlock9) = scanPre9 := by
  refine ⟨by decide, by decide, by decide, by decide, ?_⟩
  exact brace_scan_unclosed_drops_tail scanPre9 scanMarkerLine9 scanBlock9
    (by decide) (by decide) (by decide) (by decide)

/-- C10 (counterexample): the unpatcher is not idempotent — on `Tsplice`
the display-block removal splices the surrounding text into a new
injected-statement line, which only a second run removes. -/
theorem unpatch_not_idempotent :
    unpatch (unpatch Tsplice) ≠ unpatch Tsplice := by
  rw [← unpatchE_eq Tsplice, ← unpatchE_eq (unpatchE Tsplice)]
  decide

/-- C10 (amended): a second unpatcher run removes nothing further provided
the first run's output has no remaining injected-statement match, no
display-pattern match, and no `debugLogs.length` occurrence (the first
run's block removals can otherwise splice text into fresh matches). -/
theorem unpatch_idempotent_when_output_clean (T : List Char)
    (h1 : findSplitLSE lineToks true (unpatch T) = none)
    (h2 : findSplitE displayToks (unpatch T) = none)
    (h3 : isSubstr (lchars "debugLogs.length") (unpatch T) = false) :
    unpatch (unpatch T) = unpatch T := by
  rw [findSplitLSE_eq] at h1
  rw [findSplitE_eq] at h2
  exact unpatch_id_of_nomatch (unpatch T) h1 h2 h3

/-- Witness for C10's amended claim. -/
theorem unpatch_idempotent_when_output_clean_witness :
    findSplitLSE lineToks true (unpatch (lchars "plain\n")) = none ∧
    findSplitE displayToks (unpatch (lchars "plain\n")) = none ∧
    isSubstr (lchars "debugLogs.length") (unpatch (lchars "plain\n")) = false ∧
    unpatch (unpatch (lchars "plain\n")) = unpatch (lchars "plain\n") := by
  have h1 : findSplitLSE lineToks true (unpatch (lchars "plain\n")) = none := by
    rw [← unpatchE_eq]
    decide
  have h2 : findSplitE displayToks (unpatch (lchars "plain\n")) = none := by
    rw [← unpatchE_eq]
    decide
  have h3 : isSubstr (lchars "debugLogs.length") (unpatch (lchars "plain\n")) = false := by
    rw [← unpatchE_eq]
    decide
  exact ⟨h1, h2, h3, unpatch_idempotent_when_output_clean (lchars "plain\n") h1 h2 h3⟩

end HomeTeacher
